import Mathlib

/-!
Verification of the cbd (compact binary decoder) conversion core.

The program converts between CBOR binary data and JSON text, with an
auto-detecting base64 front end.  The control flow of the core
(`try_base64_decode`, `decode`, `try_cbor2json`, `json2cbor`) is embedded
from `src/main.rs`; the behaviour of the external codec libraries it calls
(base64 alphabets, the CBOR reader/writer, the JSON parser/serializer) is
not part of the repository's sources and is modelled from the
specification.  Bytes and Unicode code points are represented as natural
numbers; byte strings and text as lists of natural numbers.
-/

namespace Cbd

/-- Modelled from the spec: UTF-8 validation and decoding as performed by
the standard library's `str::from_utf8` (strict UTF-8: no surrogates, no
overlong forms, scalar values below `0x110000`).  Returns the list of
Unicode scalar values on success, `none` when the bytes are not valid
UTF-8.  `utf8Head` classifies one character: given a leading byte and the
following bytes it yields the scalar value and the number of continuation
bytes. -/
def utf8Head (b : Nat) (rest : List Nat) : Option (Nat × Nat) :=
  if b < 128 then some (b, 0)
  else if b < 194 then none
  else if b < 224 then
    match rest with
    | c1 :: _ =>
      if 128 ≤ c1 ∧ c1 < 192 then some ((b - 192) * 64 + (c1 - 128), 1) else none
    | [] => none
  else if b < 240 then
    match rest with
    | c1 :: c2 :: _ =>
      if (if b = 224 then 160 ≤ c1 ∧ c1 < 192
          else if b = 237 then 128 ≤ c1 ∧ c1 < 160
          else 128 ≤ c1 ∧ c1 < 192) ∧ 128 ≤ c2 ∧ c2 < 192 then
        some ((b - 224) * 4096 + (c1 - 128) * 64 + (c2 - 128), 2)
      else none
    | _ => none
  else if b < 245 then
    match rest with
    | c1 :: c2 :: c3 :: _ =>
      if (if b = 240 then 144 ≤ c1 ∧ c1 < 192
          else if b = 244 then 128 ≤ c1 ∧ c1 < 144
          else 128 ≤ c1 ∧ c1 < 192) ∧
          128 ≤ c2 ∧ c2 < 192 ∧ 128 ≤ c3 ∧ c3 < 192 then
        some ((b - 240) * 262144 + (c1 - 128) * 4096 + (c2 - 128) * 64 + (c3 - 128), 3)
      else none
    | _ => none
  else none

def utf8DecodeF : Nat → List Nat → Option (List Nat)
  | _, [] => some []
  | 0, _ :: _ => none
  | fuel + 1, b :: rest =>
    match utf8Head b rest with
    | none => none
    | some (c, n) => (utf8DecodeF fuel (rest.drop n)).map (c :: ·)

/-- Modelled from the spec: UTF-8 validation and decoding of a whole byte
sequence; the fuel `l.length` suffices since every character consumes at
least one byte. -/
def utf8Decode (l : List Nat) : Option (List Nat) := utf8DecodeF l.length l

/-- Modelled from the spec: the UTF-8 encoding of a Unicode scalar value. -/
def cpToUtf8 (c : Nat) : List Nat :=
  if c < 128 then [c]
  else if c < 2048 then [192 + c / 64, 128 + c % 64]
  else if c < 65536 then [224 + c / 4096, 128 + c / 64 % 64, 128 + c % 64]
  else [240 + c / 262144, 128 + c / 4096 % 64, 128 + c / 64 % 64, 128 + c % 64]

/-- Modelled from the spec: the Unicode white-space code points recognised
by `char::is_whitespace`, which underlies `str::trim_end`. -/
def isWsCp (c : Nat) : Bool :=
  c = 9 || c = 10 || c = 11 || c = 12 || c = 13 || c = 32 || c = 133 ||
  c = 160 || c = 5760 || (8192 ≤ c && c ≤ 8202) || c = 8232 || c = 8233 ||
  c = 8239 || c = 8287 || c = 12288

/-- Modelled from the spec: `str::trim_end`, dropping trailing white-space
characters from a decoded string (a list of code points). -/
def trimEnd (l : List Nat) : List Nat :=
  (l.reverse.dropWhile isWsCp).reverse

/-- Modelled from the spec: the value of a symbol in the standard
(`urlSafe = false`) or URL-safe (`urlSafe = true`) base64 alphabet. -/
def b64Lookup (urlSafe : Bool) (c : Nat) : Option Nat :=
  if 65 ≤ c ∧ c ≤ 90 then some (c - 65)
  else if 97 ≤ c ∧ c ≤ 122 then some (c - 71)
  else if 48 ≤ c ∧ c ≤ 57 then some (c + 4)
  else if urlSafe then
    if c = 45 then some 62 else if c = 95 then some 63 else none
  else
    if c = 43 then some 62 else if c = 47 then some 63 else none

/-- Modelled from the spec: the symbol chosen for a 6-bit value in the
standard or URL-safe base64 alphabet. -/
def b64Char (urlSafe : Bool) (v : Nat) : Nat :=
  if v ≤ 25 then v + 65
  else if v ≤ 51 then v + 71
  else if v ≤ 61 then v - 4
  else if v = 62 then (if urlSafe then 45 else 43)
  else (if urlSafe then 95 else 47)

/-- Modelled from the spec: the 6-bit symbol values encoding a byte
sequence (three bytes per four symbols, with two- or three-symbol tails). -/
def encVals : List Nat → List Nat
  | [] => []
  | [x] => [x / 4, x % 4 * 16]
  | [x, y] => [x / 4, x % 4 * 16 + y / 16, y % 16 * 4]
  | x :: y :: z :: rest =>
    x / 4 :: (x % 4 * 16 + y / 16) :: (y % 16 * 4 + z / 64) :: z % 64 :: encVals rest

/-- Modelled from the spec: reassembling bytes from 6-bit symbol values,
rejecting a trailing group of one symbol and non-zero unused trailing bits
(the engines are configured with `decode_allow_trailing_bits = false`). -/
def decVals : List Nat → Option (List Nat)
  | [] => some []
  | [_] => none
  | [a, b] => if b % 16 = 0 then some [a * 4 + b / 16] else none
  | [a, b, c] =>
    if c % 4 = 0 then some [a * 4 + b / 16, b % 16 * 16 + c / 4] else none
  | a :: b :: c :: d :: rest =>
    (decVals rest).map
      (fun t => (a * 4 + b / 16) :: (b % 16 * 16 + c / 4) :: (c % 4 * 64 + d) :: t)

/-- Modelled from the spec: looking up every symbol of a candidate base64
string, failing on the first symbol outside the alphabet. -/
def lookupAll (urlSafe : Bool) : List Nat → Option (List Nat)
  | [] => some []
  | c :: rest =>
    (b64Lookup urlSafe c).bind (fun v => (lookupAll urlSafe rest).map (v :: ·))

/-- Modelled from the spec: the number of trailing padding symbols of a
candidate base64 string. -/
def padCount (l : List Nat) : Nat :=
  (l.reverse.takeWhile (fun c => c == 61)).length

/-- Modelled from the spec: one base64 decoding variant of the transport
library.  `urlSafe` selects the alphabet; `padded` selects
canonical-padding mode (the library's `STANDARD`/`URL_SAFE` engines)
versus no-padding mode (`STANDARD_NO_PAD`/`URL_SAFE_NO_PAD`, where any
padding symbol is rejected). -/
def b64decodeCfg (urlSafe padded : Bool) (s : List Nat) : Option (List Nat) :=
  match padded with
  | true =>
    if 2 < padCount s then none
    else if s.length % 4 ≠ 0 then none
    else (lookupAll urlSafe (s.take (s.length - padCount s))).bind decVals
  | false => (lookupAll urlSafe s).bind decVals

/-- Modelled from the spec: base64 encoding of a byte sequence under the
chosen alphabet, with or without canonical padding. -/
def b64encode (urlSafe padded : Bool) (b : List Nat) : List Nat :=
  match padded with
  | true =>
    (encVals b).map (b64Char urlSafe) ++
      (if b.length % 3 = 1 then [61, 61]
       else if b.length % 3 = 2 then [61] else [])
  | false => (encVals b).map (b64Char urlSafe)

/-- Embedded from `src/main.rs` (`fn base64_encode`): the encode-direction
base64 wrapping, fixed to the URL-safe alphabet without padding. -/
def base64_encode (input : List Nat) : List Nat :=
  b64encode true false input

/-- Modelled from the spec: the shared abstract Value representation of the
binary (CBOR) library — a closed tagged union spanning null, boolean,
integer, float (double-precision, held as its IEEE-754 bit pattern), text,
byte string, array and map. -/
inductive CValue where
  | nullV
  | boolV (b : Bool)
  | intV (n : Int)
  | floatV (bits : Nat)
  | textV (s : List Nat)
  | bytesV (b : List Nat)
  | arrV (items : List CValue)
  | mapV (pairs : List (CValue × CValue))

/-- Modelled from the spec: the text-model Value (the JSON library's value
type): map keys are Text, numbers are 64-bit integers or double-precision
floats (held as their IEEE-754 bit pattern), strings are UTF-8 byte
sequences. -/
inductive JValue where
  | nullJ
  | boolJ (b : Bool)
  | intJ (n : Int)
  | floatJ (bits : Nat)
  | strJ (s : List Nat)
  | arrJ (items : List JValue)
  | objJ (fields : List (List Nat × JValue))

/-- Modelled from the spec: the eight-byte big-endian encoding of a 64-bit
value. -/
def be8 (n : Nat) : List Nat :=
  [n / 2 ^ 56 % 256, n / 2 ^ 48 % 256, n / 2 ^ 40 % 256, n / 2 ^ 32 % 256,
   n / 2 ^ 24 % 256, n / 2 ^ 16 % 256, n / 2 ^ 8 % 256, n % 256]

/-- Modelled from the spec: the canonical (minimal-length) CBOR head for a
major type and argument. -/
def encArg (major n : Nat) : List Nat :=
  if n < 24 then [major * 32 + n]
  else if n < 256 then [major * 32 + 24, n]
  else if n < 65536 then [major * 32 + 25, n / 256, n % 256]
  else if n < 4294967296 then
    [major * 32 + 26, n / 16777216 % 256, n / 65536 % 256, n / 256 % 256, n % 256]
  else (major * 32 + 27) :: be8 n

/-- Modelled from the spec: reading the argument of a CBOR head byte with
additional information `ai`, rejecting non-canonical (non-minimal) length
prefixes and reserved or indefinite-length forms. -/
def readArg (ai : Nat) (rest : List Nat) : Option (Nat × List Nat) :=
  if ai < 24 then some (ai, rest)
  else if ai = 24 then
    match rest with
    | n :: r => if 24 ≤ n then some (n, r) else none
    | [] => none
  else if ai = 25 then
    match rest with
    | a :: b :: r => if 256 ≤ a * 256 + b then some (a * 256 + b, r) else none
    | _ => none
  else if ai = 26 then
    match rest with
    | a :: b :: c :: d :: r =>
      if 65536 ≤ a * 16777216 + b * 65536 + c * 256 + d then
        some (a * 16777216 + b * 65536 + c * 256 + d, r)
      else none
    | _ => none
  else if ai = 27 then
    match rest with
    | a :: b :: c :: d :: e :: f :: g :: h :: r =>
      if 4294967296 ≤
          ((((((a * 256 + b) * 256 + c) * 256 + d) * 256 + e) * 256 + f) * 256 + g) * 256 + h then
        some (((((((a * 256 + b) * 256 + c) * 256 + d) * 256 + e) * 256 + f) * 256 + g) * 256 + h, r)
      else none
    | _ => none
  else none

/-- Modelled from the spec: widening an IEEE-754 single-precision bit
pattern to the double-precision bit pattern of the same value (the binary
library reads half- and single-width floats into the double-width Float
variant). -/
def f32tof64 (b : Nat) : Nat :=
  let s := b / 2 ^ 31 % 2
  let e := b / 2 ^ 23 % 256
  let m := b % 2 ^ 23
  if e = 255 then s * 2 ^ 63 + 2047 * 2 ^ 52 + m * 2 ^ 29
  else if e = 0 then
    if m = 0 then s * 2 ^ 63
    else
      let l := Nat.log2 m
      s * 2 ^ 63 + (l + 874) * 2 ^ 52 + (m * 2 ^ (52 - l) - 2 ^ 52)
  else s * 2 ^ 63 + (e + 896) * 2 ^ 52 + m * 2 ^ 29

/-- Modelled from the spec: widening an IEEE-754 half-precision bit pattern
to double precision. -/
def f16tof64 (b : Nat) : Nat :=
  let s := b / 2 ^ 15 % 2
  let e := b / 2 ^ 10 % 32
  let m := b % 2 ^ 10
  if e = 31 then s * 2 ^ 63 + 2047 * 2 ^ 52 + m * 2 ^ 42
  else if e = 0 then
    if m = 0 then s * 2 ^ 63
    else
      let l := Nat.log2 m
      s * 2 ^ 63 + (l + 999) * 2 ^ 52 + (m * 2 ^ (52 - l) - 2 ^ 52)
  else s * 2 ^ 63 + (e + 1008) * 2 ^ 52 + m * 2 ^ 42

/-- Modelled from the spec: the major-7 (simple and float) items of the
binary format — booleans, null, and half/single/double floats widened to
double. -/
def decMisc (ai : Nat) (rest : List Nat) : Option (CValue × List Nat) :=
  if ai = 20 then some (CValue.boolV false, rest)
  else if ai = 21 then some (CValue.boolV true, rest)
  else if ai = 22 then some (CValue.nullV, rest)
  else if ai = 25 then
    match rest with
    | a :: c :: r => some (CValue.floatV (f16tof64 (a * 256 + c)), r)
    | _ => none
  else if ai = 26 then
    match rest with
    | a :: c :: d :: e :: r =>
      some (CValue.floatV (f32tof64 (((a * 256 + c) * 256 + d) * 256 + e)), r)
    | _ => none
  else if ai = 27 then
    match rest with
    | a :: c :: d :: e :: f :: g :: h :: i :: r =>
      some (CValue.floatV
        (((((((a * 256 + c) * 256 + d) * 256 + e) * 256 + f) * 256 + g) * 256 + h) * 256 + i),
        r)
    | _ => none
  else none

mutual

/-- Modelled from the spec: the item reader of the binary library
(`ciborium::from_reader`), restricted per the spec to canonical,
definite-length items; tags are lossy-mapped by dropping them.  The `fuel`
argument bounds nesting depth; `cborParse` supplies a sufficient value. -/
def decItem : Nat → List Nat → Option (CValue × List Nat)
  | 0, _ => none
  | _ + 1, [] => none
  | fuel + 1, b :: rest =>
    if b / 32 = 0 then
      (readArg (b % 32) rest).map (fun p => (CValue.intV p.1, p.2))
    else if b / 32 = 1 then
      (readArg (b % 32) rest).map (fun p => (CValue.intV (-1 - (p.1 : Int)), p.2))
    else if b / 32 = 2 then
      (readArg (b % 32) rest).bind (fun p =>
        if p.1 ≤ p.2.length then some (CValue.bytesV (p.2.take p.1), p.2.drop p.1)
        else none)
    else if b / 32 = 3 then
      (readArg (b % 32) rest).bind (fun p =>
        if p.1 ≤ p.2.length ∧ (utf8Decode (p.2.take p.1)).isSome then
          some (CValue.textV (p.2.take p.1), p.2.drop p.1)
        else none)
    else if b / 32 = 4 then
      (readArg (b % 32) rest).bind (fun p =>
        (decSeq fuel p.1 p.2).map (fun q => (CValue.arrV q.1, q.2)))
    else if b / 32 = 5 then
      (readArg (b % 32) rest).bind (fun p =>
        (decPairs fuel p.1 p.2).map (fun q => (CValue.mapV q.1, q.2)))
    else if b / 32 = 6 then
      (readArg (b % 32) rest).bind (fun p => decItem fuel p.2)
    else decMisc (b % 32) rest

/-- Modelled from the spec: reading a counted sequence of CBOR items. -/
def decSeq : Nat → Nat → List Nat → Option (List CValue × List Nat)
  | 0, _, _ => none
  | _ + 1, 0, bytes => some ([], bytes)
  | fuel + 1, n + 1, bytes =>
    (decItem fuel bytes).bind (fun p =>
      (decSeq fuel n p.2).map (fun q => (p.1 :: q.1, q.2)))

/-- Modelled from the spec: reading a counted sequence of CBOR key-value
pairs. -/
def decPairs : Nat → Nat → List Nat → Option (List (CValue × CValue) × List Nat)
  | 0, _, _ => none
  | _ + 1, 0, bytes => some ([], bytes)
  | fuel + 1, n + 1, bytes =>
    (decItem fuel bytes).bind (fun p =>
      (decItem fuel p.2).bind (fun q =>
        (decPairs fuel n q.2).map (fun r => ((p.1, q.1) :: r.1, r.2))))

end

/-- Modelled from the spec: `parseBinary` — parsing a byte sequence as
exactly one well-formed binary item; a malformed item or any trailing
bytes after the first complete item yield `none`. -/
def cborParse (bytes : List Nat) : Option CValue :=
  match decItem (2 * bytes.length + 2) bytes with
  | some (v, []) => some v
  | _ => none

mutual

/-- Modelled from the spec: `renderBinary` — serializing a text-model
value to CBOR bytes (the binary writer applied to a JSON value): canonical
heads, double-width floats, string keys written as Text. -/
def encItem : JValue → List Nat
  | .nullJ => [246]
  | .boolJ false => [244]
  | .boolJ true => [245]
  | .intJ n => if 0 ≤ n then encArg 0 n.toNat else encArg 1 (-1 - n).toNat
  | .floatJ bits => 251 :: be8 bits
  | .strJ s => encArg 3 s.length ++ s
  | .arrJ items => encArg 4 items.length ++ encSeqJ items
  | .objJ fields => encArg 5 fields.length ++ encPairsJ fields

/-- Modelled from the spec: serializing the elements of an array in order. -/
def encSeqJ : List JValue → List Nat
  | [] => []
  | v :: r => encItem v ++ encSeqJ r

/-- Modelled from the spec: serializing the fields of a map in order. -/
def encPairsJ : List (List Nat × JValue) → List Nat
  | [] => []
  | (k, v) :: r => (encArg 3 k.length ++ k) ++ encItem v ++ encPairsJ r

end

mutual

/-- Modelled from the spec: the inclusion of the text model into the
binary value model (a parsed JSON value viewed as a binary-model value;
string keys become Text keys). -/
def toC : JValue → CValue
  | .nullJ => .nullV
  | .boolJ b => .boolV b
  | .intJ n => .intV n
  | .floatJ bits => .floatV bits
  | .strJ s => .textV s
  | .arrJ items => .arrV (toCSeq items)
  | .objJ fields => .mapV (toCFields fields)

/-- Modelled from the spec: elementwise inclusion of an array. -/
def toCSeq : List JValue → List CValue
  | [] => []
  | v :: r => toC v :: toCSeq r

/-- Modelled from the spec: fieldwise inclusion of a map. -/
def toCFields : List (List Nat × JValue) → List (CValue × CValue)
  | [] => []
  | (k, v) :: r => (CValue.textV k, toC v) :: toCFields r

end

mutual

/-- Modelled from the spec: well-formedness of a text-model value — string
payloads and keys are valid UTF-8, integers lie in the text model's 64-bit
number range, float patterns are 64 bits wide, and lengths fit the binary
format's argument range. -/
def wfJ : JValue → Bool
  | .nullJ => true
  | .boolJ _ => true
  | .intJ n => decide (-(2 ^ 63) ≤ n) && decide (n < 2 ^ 64)
  | .floatJ bits => decide (bits < 2 ^ 64)
  | .strJ s => (utf8Decode s).isSome && decide (s.length < 2 ^ 64)
  | .arrJ items => decide (items.length < 2 ^ 64) && wfSeq items
  | .objJ fields => decide (fields.length < 2 ^ 64) && wfFields fields

/-- Modelled from the spec: well-formedness of every array element. -/
def wfSeq : List JValue → Bool
  | [] => true
  | v :: r => wfJ v && wfSeq r

/-- Modelled from the spec: well-formedness of every map field. -/
def wfFields : List (List Nat × JValue) → Bool
  | [] => true
  | (k, v) :: r =>
    (utf8Decode k).isSome && decide (k.length < 2 ^ 64) && wfJ v && wfFields r

end

mutual

/-- Fuel sufficient for the reader to traverse the encoding of a value. -/
def needJ : JValue → Nat
  | .arrJ items => needSeq items + 1
  | .objJ fields => needFields fields + 1
  | _ => 1

/-- Fuel sufficient for the sequence reader on the elements of an array. -/
def needSeq : List JValue → Nat
  | [] => 1
  | v :: r => max (needJ v) (needSeq r) + 1

/-- Fuel sufficient for the pair reader on the fields of a map. -/
def needFields : List (List Nat × JValue) → Nat
  | [] => 1
  | (_, v) :: r => max (needJ v) (needFields r) + 1

end

/-- Decimal digit characters of a natural number, with explicit fuel. -/
def natDecAux : Nat → Nat → List Nat
  | 0, _ => []
  | fuel + 1, n => if n < 10 then [48 + n] else natDecAux fuel (n / 10) ++ [48 + n % 10]

/-- Decimal digit characters of a natural number. -/
def natDec (n : Nat) : List Nat := natDecAux (n + 1) n

/-- Decimal text of an integer (ASCII, with a leading minus when negative). -/
def intDec (n : Int) : List Nat :=
  if n < 0 then 45 :: natDec (-n).toNat else natDec n.toNat

/-- Drop trailing zero digits but keep at least one digit. -/
def stripZeros (l : List Nat) : List Nat :=
  let r := l.reverse.dropWhile (fun c => c == 48)
  if r = [] then [48] else r.reverse

/-- Modelled from the spec: the canonical text form of a double-precision
float — its exact decimal expansion (the spec fixes only that a canonical
textual literal exists); non-finite patterns serialize as `null`, as the
text library does. -/
def floatText (bits : Nat) : List Nat :=
  let s : Nat := bits / 2 ^ 63 % 2
  let e : Nat := bits / 2 ^ 52 % 2048
  let m : Nat := bits % 2 ^ 52
  if e = 2047 then [110, 117, 108, 108]
  else
    let sign : List Nat := if s = 1 then [45] else []
    if e = 0 ∧ m = 0 then sign ++ [48, 46, 48]
    else
      let M : Nat := if e = 0 then m else 2 ^ 52 + m
      let E : Int := if e = 0 then -1074 else Int.ofNat e - 1075
      if 0 ≤ E then sign ++ natDec (M * 2 ^ E.toNat) ++ [46, 48]
      else
        let k := (-E).toNat
        let digs := natDec (M * 5 ^ k)
        let digs :=
          if digs.length ≤ k then List.replicate (k + 1 - digs.length) 48 ++ digs
          else digs
        let ip := digs.take (digs.length - k)
        let fp := stripZeros (digs.drop (digs.length - k))
        sign ++ ip ++ [46] ++ fp

/-- Scalar kinds usable as map keys (Text, Integer, Bool, Float). -/
def isScalarKey : CValue → Bool
  | .textV _ => true
  | .intV _ => true
  | .boolV _ => true
  | .floatV _ => true
  | _ => false

/-- Structurally non-scalar kinds (Array, Map), unrepresentable as keys. -/
def isStructKey : CValue → Bool
  | .arrV _ => true
  | .mapV _ => true
  | _ => false

/-- Modelled from the spec: the key-coercion policy of `renderText` — Text
keys pass through; other scalar keys are coerced to their canonical text
form (e.g. integer 5 becomes `5`); structurally non-scalar keys (Array,
Map) are unrepresentable. -/
def keyToText : CValue → Option (List Nat)
  | .textV s => some s
  | .intV n => some (intDec n)
  | .boolV true => some [116, 114, 117, 101]
  | .boolV false => some [102, 97, 108, 115, 101]
  | .nullV => some [110, 117, 108, 108]
  | .floatV bits => some (floatText bits)
  | .bytesV b => some (b64encode true false b)
  | .arrV _ => none
  | .mapV _ => none

mutual

/-- Modelled from the spec: `renderText`'s structural conversion of a
binary value to a text-model value (the text library's serialization of
the binary value, at the value level): byte strings are lossy-mapped to
arrays of integers, map keys are coerced by `keyToText`. -/
def renderTextVal : CValue → Option JValue
  | .nullV => some .nullJ
  | .boolV b => some (.boolJ b)
  | .intV n => some (.intJ n)
  | .floatV bits => some (.floatJ bits)
  | .textV s => some (.strJ s)
  | .bytesV b => some (.arrJ (b.map (fun x => .intJ x)))
  | .arrV items => (renderSeq items).map .arrJ
  | .mapV pairs => (renderPairs pairs).map .objJ

/-- Modelled from the spec: rendering every element of an array. -/
def renderSeq : List CValue → Option (List JValue)
  | [] => some []
  | v :: r => (renderTextVal v).bind (fun j => (renderSeq r).map (j :: ·))

/-- Modelled from the spec: rendering every field of a map, coercing each
key. -/
def renderPairs : List (CValue × CValue) → Option (List (List Nat × JValue))
  | [] => some []
  | (k, v) :: r =>
    (keyToText k).bind (fun ks =>
      (renderTextVal v).bind (fun j =>
        (renderPairs r).map (fun ps => (ks, j) :: ps)))

end

/-- Lower-case hexadecimal digit character. -/
def hexDig (d : Nat) : Nat := if d < 10 then 48 + d else 87 + d

/-- Modelled from the spec: JSON string escaping of the text library —
quote, backslash, the short control escapes and `\u00XX` for the remaining
control characters; everything else passes through. -/
def escChar (c : Nat) : List Nat :=
  if c = 34 then [92, 34]
  else if c = 92 then [92, 92]
  else if c = 8 then [92, 98]
  else if c = 9 then [92, 116]
  else if c = 10 then [92, 110]
  else if c = 12 then [92, 102]
  else if c = 13 then [92, 114]
  else if c < 32 then [92, 117, 48, 48, hexDig (c / 16), hexDig (c % 16)]
  else [c]

/-- Escaping applied to every byte of a string body. -/
def escString : List Nat → List Nat
  | [] => []
  | c :: r => escChar c ++ escString r

mutual

/-- Modelled from the spec: the compact textual serialization of a
text-model value (the text library's `to_string`, at the value level). -/
def jsonToString : JValue → List Nat
  | .nullJ => [110, 117, 108, 108]
  | .boolJ true => [116, 114, 117, 101]
  | .boolJ false => [102, 97, 108, 115, 101]
  | .intJ n => intDec n
  | .floatJ bits => floatText bits
  | .strJ s => 34 :: escString s ++ [34]
  | .arrJ items => 91 :: jsonArr items ++ [93]
  | .objJ fields => 123 :: jsonObj fields ++ [125]

/-- Comma-separated serialization of array elements. -/
def jsonArr : List JValue → List Nat
  | [] => []
  | [v] => jsonToString v
  | v :: w :: r => jsonToString v ++ 44 :: jsonArr (w :: r)

/-- Comma-separated serialization of map fields. -/
def jsonObj : List (List Nat × JValue) → List Nat
  | [] => []
  | [(k, v)] => 34 :: escString k ++ [34, 58] ++ jsonToString v
  | (k, v) :: f :: r =>
    (34 :: escString k ++ [34, 58] ++ jsonToString v) ++ 44 :: jsonObj (f :: r)

end

mutual

/-- Modelled from the spec: canonicalization — the documented lossy
coercions (map-key stringification, integer/float range folding).  On
text-model trees the coercions are vacuous: keys are already Text and
numbers are already folded by `parseText`, so every constructor maps to
itself. -/
def canonicalizeJ : JValue → JValue
  | .nullJ => .nullJ
  | .boolJ b => .boolJ b
  | .intJ n => .intJ n
  | .floatJ bits => .floatJ bits
  | .strJ s => .strJ s
  | .arrJ items => .arrJ (canonSeq items)
  | .objJ fields => .objJ (canonFields fields)

/-- Canonicalization of every array element. -/
def canonSeq : List JValue → List JValue
  | [] => []
  | v :: r => canonicalizeJ v :: canonSeq r

/-- Canonicalization of every map field. -/
def canonFields : List (List Nat × JValue) → List (List Nat × JValue)
  | [] => []
  | (k, v) :: r => (k, canonicalizeJ v) :: canonFields r

end

/-- Modelled from the spec: `renderText(Value) -> Text` — value-level
conversion followed by textual serialization. -/
def renderText (v : CValue) : Option (List Nat) :=
  (renderTextVal v).map jsonToString

/-- Embedded from `src/main.rs` (`fn try_cbor2json`): read the bytes as a
single binary item, then serialize the resulting value as JSON text, with
the source's error messages. -/
def try_cbor2json (cbor : List Nat) : Except String (List Nat) :=
  match cborParse cbor with
  | none => Except.error "Failed to decode CBOR"
  | some v =>
    match renderTextVal v with
    | none => Except.error "Failed to encode JSON"
    | some j => Except.ok (jsonToString j)

/-- Embedded from `src/main.rs` (`fn try_base64_decode`): interpret the
input as UTF-8, trim trailing white-space, then try the four base64
variants in source order (URL-safe no-pad, standard with padding, URL-safe
with padding, standard no-pad), returning the first success. -/
def try_base64_decode (input : List Nat) : Except String (List Nat) :=
  match utf8Decode input with
  | none => Except.error "Failed to decode input as utf8"
  | some cps =>
    let text := trimEnd cps
    match b64decodeCfg true false text with
    | some bytes => Except.ok bytes
    | none =>
      match b64decodeCfg false true text with
      | some bytes => Except.ok bytes
      | none =>
        match b64decodeCfg true true text with
        | some bytes => Except.ok bytes
        | none =>
          match b64decodeCfg false false text with
          | some bytes => Except.ok bytes
          | none => Except.error "Failed to decode base64"

/-- Embedded from `src/main.rs` (`fn decode`): try base64-encoded CBOR
first, then raw CBOR. -/
def decode (input : List Nat) : Except String (List Nat) :=
  match try_base64_decode input with
  | Except.ok cbor => try_cbor2json cbor
  | Except.error _ => try_cbor2json input

/-- First successful decoder among an ordered list of candidates. -/
def firstSome (ds : List (List Nat → Option (List Nat))) (s : List Nat) :
    Option (List Nat) :=
  match ds with
  | [] => none
  | d :: r =>
    match d s with
    | some b => some b
    | none => firstSome r s

/-- Stated from the spec's words, for comparison with the source's
`try_base64_decode`: on UTF-8 input, strip trailing white-space, then
return the decoded bytes of the first variant that succeeds among the four
variants in the documented priority order (URL-safe-no-padding,
standard-with-padding, URL-safe-with-padding, standard-no-padding). -/
def snifferSpec (input : List Nat) : Except String (List Nat) :=
  match utf8Decode input with
  | none => Except.error "Failed to decode input as utf8"
  | some cps =>
    match firstSome
        [b64decodeCfg true false, b64decodeCfg false true,
         b64decodeCfg true true, b64decodeCfg false false]
        (trimEnd cps) with
    | some bytes => Except.ok bytes
    | none => Except.error "Failed to decode base64"

/-- JSON insignificant white-space (space, tab, line feed, carriage
return). -/
def jsonWs (c : Nat) : Bool := c = 32 || c = 9 || c = 10 || c = 13

/-- Skip insignificant white-space. -/
def skipWs (l : List Nat) : List Nat := l.dropWhile jsonWs

/-- Value of a hexadecimal digit character. -/
def hexVal (c : Nat) : Option Nat :=
  if 48 ≤ c ∧ c ≤ 57 then some (c - 48)
  else if 97 ≤ c ∧ c ≤ 102 then some (c - 87)
  else if 65 ≤ c ∧ c ≤ 70 then some (c - 55)
  else none

/-- Short escape sequences of the JSON grammar. -/
def escMap (e : Nat) : Option Nat :=
  if e = 34 then some 34
  else if e = 92 then some 92
  else if e = 47 then some 47
  else if e = 98 then some 8
  else if e = 102 then some 12
  else if e = 110 then some 10
  else if e = 114 then some 13
  else if e = 116 then some 9
  else none

/-- Modelled from the spec: the text library's JSON string body reader
(after the opening quote) over code points, handling escapes and surrogate
pairs and rejecting lone surrogates and raw control characters; returns
the UTF-8 bytes of the string and the remaining input. -/
def parseStr : List Nat → Option (List Nat × List Nat)
  | [] => none
  | 34 :: r => some ([], r)
  | 92 :: e :: r =>
    if e = 117 then
      match r with
      | h1 :: h2 :: h3 :: h4 :: r2 =>
        match hexVal h1, hexVal h2, hexVal h3, hexVal h4 with
        | some a, some b, some c, some d =>
          let cp := ((a * 16 + b) * 16 + c) * 16 + d
          if 55296 ≤ cp ∧ cp < 56320 then
            match r2 with
            | 92 :: 117 :: g1 :: g2 :: g3 :: g4 :: r3 =>
              match hexVal g1, hexVal g2, hexVal g3, hexVal g4 with
              | some a2, some b2, some c2, some d2 =>
                let lo := ((a2 * 16 + b2) * 16 + c2) * 16 + d2
                if 56320 ≤ lo ∧ lo < 57344 then
                  (parseStr r3).map (fun p =>
                    (cpToUtf8 (65536 + (cp - 55296) * 1024 + (lo - 56320)) ++ p.1, p.2))
                else none
              | _, _, _, _ => none
            | _ => none
          else if 56320 ≤ cp ∧ cp < 57344 then none
          else (parseStr r2).map (fun p => (cpToUtf8 cp ++ p.1, p.2))
        | _, _, _, _ => none
      | _ => none
    else
      match escMap e with
      | some c => (parseStr r).map (fun p => (c :: p.1, p.2))
      | none => none
  | c :: r =>
    if c < 32 then none
    else (parseStr r).map (fun p => (cpToUtf8 c ++ p.1, p.2))

/-- Accumulate a run of decimal digits: value, digit count, rest. -/
def digitRun : List Nat → Nat → Nat → Nat × Nat × List Nat
  | [], v, n => (v, n, [])
  | c :: r, v, n =>
    if 48 ≤ c ∧ c ≤ 57 then digitRun r (v * 10 + (c - 48)) (n + 1)
    else (v, n, c :: r)

/-- Compare `num / den` with `2 ^ e` by cross multiplication. -/
def cmpPow2 (num den : Nat) (e : Int) : Ordering :=
  if 0 ≤ e then compare num (den * 2 ^ e.toNat)
  else compare (num * 2 ^ (-e).toNat) den

/-- Adjust a binary-exponent estimate for `num / den` until
`2 ^ e ≤ num / den < 2 ^ (e + 1)`, with fuel for the bounded search. -/
def fitExp (num den : Nat) : Int → Nat → Int
  | e, 0 => e
  | e, fuel + 1 =>
    if cmpPow2 num den (e + 1) ≠ Ordering.lt then fitExp num den (e + 1) fuel
    else if cmpPow2 num den e = Ordering.lt then fitExp num den (e - 1) fuel
    else e

/-- Modelled from the spec: correctly rounded conversion of a decimal
literal `D × 10 ^ E` (negated when `neg`) to a double-precision bit
pattern, as the text library performs for numbers with a fraction or
exponent or outside the 64-bit integer range; round to nearest, ties to
even, overflowing to infinity. -/
def decToBits (neg : Bool) (D : Nat) (E : Int) : Nat :=
  let sign : Nat := if neg then 2 ^ 63 else 0
  if D = 0 then sign
  else
    let num : Nat := if 0 ≤ E then D * 10 ^ E.toNat else D
    let den : Nat := if 0 ≤ E then 1 else 10 ^ (-E).toNat
    let e0 : Int := Int.ofNat (Nat.log2 num) - Int.ofNat (Nat.log2 den)
    let e : Int := fitExp num den e0 8
    if 1024 ≤ e then sign + 2047 * 2 ^ 52
    else if e < -1022 then
      let p := num * 2 ^ 1074
      let m := p / den
      let r := p % den
      let m2 := if den < 2 * r ∨ (2 * r = den ∧ m % 2 = 1) then m + 1 else m
      sign + m2
    else
      let sh : Int := e - 52
      let p : Nat := if 0 ≤ sh then num else num * 2 ^ (-sh).toNat
      let q : Nat := if 0 ≤ sh then den * 2 ^ sh.toNat else den
      let m := p / q
      let r := p % q
      let m2 := if q < 2 * r ∨ (2 * r = q ∧ m % 2 = 1) then m + 1 else m
      if m2 = 2 ^ 53 then
        if e + 1 = 1024 then sign + 2047 * 2 ^ 52
        else sign + (e + 1 + 1023).toNat * 2 ^ 52
      else sign + (e + 1023).toNat * 2 ^ 52 + (m2 - 2 ^ 52)

/-- Modelled from the spec: the text library's number grammar — optional
minus, integer part without redundant leading zeros, optional fraction and
exponent.  Plain integer literals within the 64-bit range parse as
integers; everything else (fraction, exponent, out-of-range, negative
zero) parses as a correctly rounded double. -/
def parseNum (l : List Nat) : Option (JValue × List Nat) :=
  let neg : Bool := match l with | 45 :: _ => true | _ => false
  let l1 : List Nat := match l with | 45 :: r => r | _ => l
  match l1 with
  | c :: _ =>
    if 48 ≤ c ∧ c ≤ 57 then
      let ir := digitRun l1 0 0
      if c = 48 ∧ 1 < ir.2.1 then none
      else
        let fr : Option (Nat × Nat × List Nat) :=
          match ir.2.2 with
          | 46 :: r2 =>
            let q := digitRun r2 0 0
            if q.2.1 = 0 then none else some q
          | _ => some (0, 0, ir.2.2)
        match fr with
        | none => none
        | some f =>
          let er : Option (Int × List Nat) :=
            match f.2.2 with
            | 101 :: r3 =>
              (match r3 with
               | 43 :: r4 =>
                 let q := digitRun r4 0 0
                 if q.2.1 = 0 then none else some (Int.ofNat q.1, q.2.2)
               | 45 :: r4 =>
                 let q := digitRun r4 0 0
                 if q.2.1 = 0 then none else some (-Int.ofNat q.1, q.2.2)
               | _ =>
                 let q := digitRun r3 0 0
                 if q.2.1 = 0 then none else some (Int.ofNat q.1, q.2.2))
            | 69 :: r3 =>
              (match r3 with
               | 43 :: r4 =>
                 let q := digitRun r4 0 0
                 if q.2.1 = 0 then none else some (Int.ofNat q.1, q.2.2)
               | 45 :: r4 =>
                 let q := digitRun r4 0 0
                 if q.2.1 = 0 then none else some (-Int.ofNat q.1, q.2.2)
               | _ =>
                 let q := digitRun r3 0 0
                 if q.2.1 = 0 then none else some (Int.ofNat q.1, q.2.2))
            | _ => some (0, f.2.2)
          match er with
          | none => none
          | some ex =>
            let isPlain : Bool :=
              decide (f.2.2 = ir.2.2) && decide (ex.2 = f.2.2)
            if isPlain then
              if neg then
                if ir.1 = 0 then some (.floatJ (decToBits true 0 0), ex.2)
                else if ir.1 ≤ 2 ^ 63 then some (.intJ (-Int.ofNat ir.1), ex.2)
                else some (.floatJ (decToBits true ir.1 0), ex.2)
              else
                if ir.1 < 2 ^ 64 then some (.intJ (Int.ofNat ir.1), ex.2)
                else some (.floatJ (decToBits false ir.1 0), ex.2)
            else
              some (.floatJ
                (decToBits neg (ir.1 * 10 ^ f.2.1 + f.1) (ex.1 - Int.ofNat f.2.1)),
                ex.2)
    else none
  | [] => none

/-- Remove every field with the given key. -/
def remKey (k : List Nat) : List (List Nat × JValue) → List (List Nat × JValue)
  | [] => []
  | (k2, v) :: r => if k2 = k then remKey k r else (k2, v) :: remKey k r

/-- Look up a field by key. -/
def lookKey (k : List Nat) : List (List Nat × JValue) → Option JValue
  | [] => none
  | (k2, v) :: r => if k2 = k then some v else lookKey k r

/-- Modelled from the spec: sequential map insertion with last-key-wins
semantics at the first occurrence's position (the order-preserving map of
the text library). -/
def insField (k : List Nat) (v : JValue) (rest : List (List Nat × JValue)) :
    List (List Nat × JValue) :=
  match lookKey k rest with
  | some v2 => (k, v2) :: remKey k rest
  | none => (k, v) :: rest

mutual

/-- Modelled from the spec: `parseText`'s recursive-descent value parser
(the text library's `from_str` at the value level) over code points, with
explicit fuel; `parseJson` supplies a sufficient value. -/
def parseValue : Nat → List Nat → Option (JValue × List Nat)
  | 0, _ => none
  | fuel + 1, l =>
    match skipWs l with
    | 110 :: 117 :: 108 :: 108 :: r => some (.nullJ, r)
    | 116 :: 114 :: 117 :: 101 :: r => some (.boolJ true, r)
    | 102 :: 97 :: 108 :: 115 :: 101 :: r => some (.boolJ false, r)
    | 34 :: r => (parseStr r).map (fun p => (JValue.strJ p.1, p.2))
    | 91 :: r =>
      (match skipWs r with
       | 93 :: r2 => some (JValue.arrJ [], r2)
       | _ => (parseElems fuel (skipWs r)).map (fun p => (JValue.arrJ p.1, p.2)))
    | 123 :: r =>
      (match skipWs r with
       | 125 :: r2 => some (JValue.objJ [], r2)
       | _ => (parseFields fuel (skipWs r)).map (fun p => (JValue.objJ p.1, p.2)))
    | l2 => parseNum l2

/-- Elements of a non-empty array, up to and including the closing
bracket. -/
def parseElems : Nat → List Nat → Option (List JValue × List Nat)
  | 0, _ => none
  | fuel + 1, l =>
    (parseValue fuel l).bind (fun p =>
      match skipWs p.2 with
      | 93 :: r => some ([p.1], r)
      | 44 :: r => (parseElems fuel r).map (fun q => (p.1 :: q.1, q.2))
      | _ => none)

/-- Fields of a non-empty object, up to and including the closing brace,
with last-key-wins insertion. -/
def parseFields : Nat → List Nat → Option (List (List Nat × JValue) × List Nat)
  | 0, _ => none
  | fuel + 1, l =>
    match skipWs l with
    | 34 :: r =>
      (parseStr r).bind (fun kp =>
        match skipWs kp.2 with
        | 58 :: r2 =>
          (parseValue fuel r2).bind (fun vp =>
            match skipWs vp.2 with
            | 125 :: r3 => some ([(kp.1, vp.1)], r3)
            | 44 :: r3 =>
              (parseFields fuel r3).map (fun q => (insField kp.1 vp.1 q.1, q.2))
            | _ => none)
        | _ => none)
    | _ => none

end

/-- Modelled from the spec: `parseText` — parse one JSON value and require
that only white-space follows. -/
def parseJson (cps : List Nat) : Option JValue :=
  match parseValue (cps.length + 2) cps with
  | some (v, rest) => if skipWs rest = [] then some v else none
  | none => none

/-- Embedded from `src/main.rs` (`fn json2cbor`): parse the input string
as JSON and serialize the value to CBOR; the source's panic on malformed
JSON is modelled by `none`. -/
def json2cbor (json : List Nat) : Option (List Nat) :=
  (parseJson json).map encItem

mutual

/-- Every map key anywhere in the tree is a scalar of kind Text, Integer,
Bool or Float. -/
def allScalarKeys : CValue → Bool
  | .arrV items => allScalarKeysSeq items
  | .mapV pairs => allScalarKeysPairs pairs
  | _ => true

/-- Scalar-key check for every element of an array. -/
def allScalarKeysSeq : List CValue → Bool
  | [] => true
  | v :: r => allScalarKeys v && allScalarKeysSeq r

/-- Scalar-key check for every field of a map. -/
def allScalarKeysPairs : List (CValue × CValue) → Bool
  | [] => true
  | (k, v) :: r => isScalarKey k && allScalarKeys v && allScalarKeysPairs r

end

mutual

/-- Some map anywhere in the tree has a structurally non-scalar (Array or
Map) key. -/
def hasBadKey : CValue → Bool
  | .arrV items => hasBadKeySeq items
  | .mapV pairs => hasBadKeyPairs pairs
  | _ => false

/-- Bad-key check for every element of an array. -/
def hasBadKeySeq : List CValue → Bool
  | [] => false
  | v :: r => hasBadKey v || hasBadKeySeq r

/-- Bad-key check for every field of a map. -/
def hasBadKeyPairs : List (CValue × CValue) → Bool
  | [] => false
  | (k, v) :: r => isStructKey k || hasBadKey v || hasBadKeyPairs r

end

/-- UTF-8 encoding of a list of code points. -/
def utf8Enc : List Nat → List Nat
  | [] => []
  | c :: r => cpToUtf8 c ++ utf8Enc r

theorem utf8DecodeF_ascii (fuel : Nat) (l : List Nat) (hf : l.length ≤ fuel)
    (h : ∀ x ∈ l, x < 128) : utf8DecodeF fuel l = some l := by
  induction fuel generalizing l with
  | zero =>
    cases l with
    | nil => rfl
    | cons b r => simp at hf
  | succ f ih =>
    cases l with
    | nil => rfl
    | cons b r =>
      have hb : b < 128 := h b (by simp)
      have hh : utf8Head b r = some (b, 0) := by
        unfold utf8Head
        rw [if_pos hb]
      rw [utf8DecodeF, hh]
      show (utf8DecodeF f (r.drop 0)).map (b :: ·) = some (b :: r)
      rw [List.drop_zero,
        ih r (by simpa using Nat.le_of_succ_le_succ (by simpa using hf))
          (fun x hx => h x (List.mem_cons_of_mem _ hx))]
      rfl

theorem utf8Decode_ascii (l : List Nat) (h : ∀ x ∈ l, x < 128) :
    utf8Decode l = some l :=
  utf8DecodeF_ascii l.length l le_rfl h

theorem dropWhile_of_none {p : Nat → Bool} (l : List Nat)
    (h : ∀ c ∈ l, p c = false) : l.dropWhile p = l := by
  cases l with
  | nil => rfl
  | cons c r => simp [List.dropWhile, h c (by simp)]

theorem trimEnd_of_all (l : List Nat) (h : ∀ c ∈ l, isWsCp c = false) :
    trimEnd l = l := by
  unfold trimEnd
  rw [dropWhile_of_none _ (fun c hc => h c (List.mem_reverse.mp hc)),
    List.reverse_reverse]

theorem b64Char_facts : ∀ v < 64, ∀ u : Bool,
    b64Lookup u (b64Char u v) = some v ∧ b64Char u v ≠ 61 ∧
    b64Char u v < 128 ∧ isWsCp (b64Char u v) = false := by decide

theorem encVals_bound (b : List Nat) (hb : ∀ x ∈ b, x < 256) :
    ∀ v ∈ encVals b, v < 64 := by
  induction b using encVals.induct with
  | case1 => intro v hv; simp [encVals] at hv
  | case2 x =>
    have hx := hb x (by simp)
    intro v hv
    simp [encVals] at hv
    rcases hv with h | h <;> omega
  | case3 x y =>
    have hx := hb x (by simp)
    have hy := hb y (by simp)
    intro v hv
    simp [encVals] at hv
    rcases hv with h | h | h <;> omega
  | case4 x y z rest ih =>
    have hx := hb x (by simp)
    have hy := hb y (by simp)
    have hz := hb z (by simp)
    have ih2 := ih (fun w hw => hb w (by simp [hw]))
    intro v hv
    simp only [encVals, List.mem_cons] at hv
    rcases hv with h | h | h | h | h
    · omega
    · omega
    · omega
    · omega
    · exact ih2 v h

theorem decVals_encVals (b : List Nat) (hb : ∀ x ∈ b, x < 256) :
    decVals (encVals b) = some b := by
  induction b using encVals.induct with
  | case1 => rfl
  | case2 x =>
    have hx := hb x (by simp)
    simp only [encVals, decVals]
    have h1 : x % 4 * 16 % 16 = 0 := by omega
    rw [if_pos h1]
    simp only [Option.some.injEq, List.cons.injEq, and_true]
    omega
  | case3 x y =>
    have hx := hb x (by simp)
    have hy := hb y (by simp)
    simp only [encVals, decVals]
    have h1 : y % 16 * 4 % 4 = 0 := by omega
    rw [if_pos h1]
    simp only [Option.some.injEq, List.cons.injEq, and_true]
    omega
  | case4 x y z rest ih =>
    have hx := hb x (by simp)
    have hy := hb y (by simp)
    have hz := hb z (by simp)
    have ih2 := ih (fun w hw => hb w (by simp [hw]))
    simp only [encVals, decVals, ih2, Option.map_some, Option.map_some',
      Option.some.injEq, List.cons.injEq, and_true]
    omega

theorem lookupAll_map_char (u : Bool) (vals : List Nat)
    (h : ∀ v ∈ vals, v < 64) :
    lookupAll u (vals.map (b64Char u)) = some vals := by
  induction vals with
  | nil => rfl
  | cons v r ih =>
    have h1 := (b64Char_facts v (h v (by simp)) u).1
    have h2 := ih (fun x hx => h x (by simp [hx]))
    simp [lookupAll, h1, h2]

theorem padCount_concat61 (l : List Nat) : padCount (l ++ [61]) = padCount l + 1 := by
  simp [padCount, List.reverse_append, List.takeWhile_cons]

theorem padCount_no61 (l : List Nat) (h : ∀ c ∈ l, c ≠ 61) : padCount l = 0 := by
  unfold padCount
  cases hr : l.reverse with
  | nil => rfl
  | cons c t =>
    have hc : c ∈ l := by
      rw [← List.mem_reverse, hr]; simp
    have := h c hc
    simp [List.takeWhile_cons, this]

theorem encVals_length (b : List Nat) :
    (encVals b).length =
      b.length / 3 * 4 + (if b.length % 3 = 0 then 0 else b.length % 3 + 1) := by
  induction b using encVals.induct with
  | case1 => rfl
  | case2 x =>
    simp only [encVals, List.length_cons, List.length_nil, List.length_singleton]
    decide
  | case3 x y =>
    simp only [encVals, List.length_cons, List.length_nil, List.length_singleton]
    decide
  | case4 x y z rest ih =>
    simp only [encVals, List.length_cons, ih]
    have h3 : (rest.length + 1 + 1 + 1) / 3 = rest.length / 3 + 1 := by omega
    have h4 : (rest.length + 1 + 1 + 1) % 3 = rest.length % 3 := by omega
    rw [h3, h4]
    by_cases h0 : rest.length % 3 = 0
    · rw [if_pos h0]
      omega
    · rw [if_neg h0]
      omega

theorem b64decode_encode_nopad (u : Bool) (b : List Nat)
    (hb : ∀ x ∈ b, x < 256) :
    b64decodeCfg u false (b64encode u false b) = some b := by
  simp [b64decodeCfg, b64encode, lookupAll_map_char u _ (encVals_bound b hb),
    decVals_encVals b hb]

theorem b64core_no61 (u : Bool) (b : List Nat) (hb : ∀ x ∈ b, x < 256) :
    ∀ c ∈ (encVals b).map (b64Char u), c ≠ 61 := by
  intro c hc
  rcases List.mem_map.mp hc with ⟨v, hv, rfl⟩
  exact (b64Char_facts v (encVals_bound b hb v hv) u).2.1

theorem b64decodeCfg_pad_eval (u : Bool) (core pads : List Nat)
    (hpc : padCount (core ++ pads) = pads.length)
    (hk : pads.length ≤ 2)
    (hmod : (core.length + pads.length) % 4 = 0) :
    b64decodeCfg u true (core ++ pads) = (lookupAll u core).bind decVals := by
  have hlen : (core ++ pads).length = core.length + pads.length :=
    List.length_append core pads
  simp only [b64decodeCfg, hpc, hlen]
  rw [if_neg (by omega), if_neg (by omega)]
  have ht : core.length + pads.length - pads.length = core.length := by omega
  rw [ht, List.take_left]

theorem b64decode_encode_pad (u : Bool) (b : List Nat)
    (hb : ∀ x ∈ b, x < 256) :
    b64decodeCfg u true (b64encode u true b) = some b := by
  have hcore61 := b64core_no61 u b hb
  have hlen := encVals_length b
  have hlook := lookupAll_map_char u _ (encVals_bound b hb)
  have hdec := decVals_encVals b hb
  show b64decodeCfg u true ((encVals b).map (b64Char u) ++
      (if b.length % 3 = 1 then [61, 61]
       else if b.length % 3 = 2 then [61] else [])) = some b
  by_cases h1 : b.length % 3 = 1
  · rw [if_pos h1]
    have hpc : padCount ((encVals b).map (b64Char u) ++ [61, 61]) = 2 := by
      have he : (encVals b).map (b64Char u) ++ [61, 61] =
          (((encVals b).map (b64Char u) ++ [61]) ++ [61]) := by simp
      rw [he, padCount_concat61, padCount_concat61, padCount_no61 _ hcore61]
    have hmod : (((encVals b).map (b64Char u)).length + 2) % 4 = 0 := by
      rw [List.length_map, hlen, if_neg (by omega)]
      omega
    rw [b64decodeCfg_pad_eval u _ [61, 61] hpc (by simp) (by simpa using hmod),
      hlook]
    simpa using hdec
  · by_cases h2 : b.length % 3 = 2
    · rw [if_neg h1, if_pos h2]
      have hpc : padCount ((encVals b).map (b64Char u) ++ [61]) = 1 := by
        rw [padCount_concat61, padCount_no61 _ hcore61]
      have hmod : (((encVals b).map (b64Char u)).length + 1) % 4 = 0 := by
        rw [List.length_map, hlen, if_neg (by omega)]
        omega
      rw [b64decodeCfg_pad_eval u _ [61] hpc (by simp) (by simpa using hmod),
        hlook]
      simpa using hdec
    · rw [if_neg h1, if_neg h2]
      have hpc : padCount ((encVals b).map (b64Char u) ++ []) = 0 := by
        rw [List.append_nil]
        exact padCount_no61 _ hcore61
      have hmod : (((encVals b).map (b64Char u)).length + 0) % 4 = 0 := by
        rw [List.length_map, hlen, if_pos (by omega)]
        omega
      rw [b64decodeCfg_pad_eval u _ [] hpc (by simp) (by simpa using hmod),
        hlook]
      simpa using hdec

theorem b64Lookup_agree {u u' : Bool} {c v v' : Nat}
    (h : b64Lookup u c = some v) (h' : b64Lookup u' c = some v') : v = v' := by
  unfold b64Lookup at h h'
  split_ifs at h h' <;> simp_all

theorem b64Lookup_61 (u : Bool) : b64Lookup u 61 = none := by
  cases u <;> rfl

theorem lookupAll_agree {u u' : Bool} {s vs vs' : List Nat}
    (h : lookupAll u s = some vs) (h' : lookupAll u' s = some vs') : vs = vs' := by
  induction s generalizing vs vs' with
  | nil =>
    rw [lookupAll] at h h'
    have h1 := (Option.some.injEq _ _).mp h
    have h2 := (Option.some.injEq _ _).mp h'
    rw [← h1, ← h2]
  | cons c r ih =>
    rw [lookupAll] at h h'
    rcases Option.bind_eq_some.mp h with ⟨v, hv, hmap⟩
    rcases Option.map_eq_some'.mp hmap with ⟨ws, hws, rfl⟩
    rcases Option.bind_eq_some.mp h' with ⟨v2, hv2, hmap2⟩
    rcases Option.map_eq_some'.mp hmap2 with ⟨ws2, hws2, rfl⟩
    rw [b64Lookup_agree hv hv2, ih hws hws2]

theorem lookupAll_no61 {u : Bool} {s vs : List Nat}
    (h : lookupAll u s = some vs) : ∀ c ∈ s, c ≠ 61 := by
  induction s generalizing vs with
  | nil =>
    intro c hc
    simp at hc
  | cons a r ih =>
    rw [lookupAll] at h
    rcases Option.bind_eq_some.mp h with ⟨v, hv, hmap⟩
    rcases Option.map_eq_some'.mp hmap with ⟨ws, hws, _⟩
    intro c hc
    rcases List.mem_cons.mp hc with rfl | hc2
    · intro h61
      rw [h61, b64Lookup_61] at hv
      exact Option.noConfusion hv
    · exact ih hws c hc2

theorem b64decodeCfg_elim {u p : Bool} {s x : List Nat}
    (h : b64decodeCfg u p s = some x) :
    ∃ vs, lookupAll u (cond p (s.take (s.length - padCount s)) s) = some vs ∧
      decVals vs = some x := by
  cases p with
  | false =>
    rcases Option.bind_eq_some.mp h with ⟨vs, hvs, hd⟩
    exact ⟨vs, hvs, hd⟩
  | true =>
    simp only [b64decodeCfg] at h
    split_ifs at h
    rcases Option.bind_eq_some.mp h with ⟨vs, hvs, hd⟩
    exact ⟨vs, hvs, hd⟩

theorem b64decodeCfg_agree {u p u' p' : Bool} {s x y : List Nat}
    (h : b64decodeCfg u p s = some x) (h' : b64decodeCfg u' p' s = some y) :
    x = y := by
  rcases b64decodeCfg_elim h with ⟨vs, hvs, hd⟩
  rcases b64decodeCfg_elim h' with ⟨vs2, hvs2, hd2⟩
  have key : vs = vs2 := by
    cases p <;> cases p' <;> simp only [cond_true, cond_false] at hvs hvs2
    · exact lookupAll_agree hvs hvs2
    · have h0 : padCount s = 0 := padCount_no61 s (lookupAll_no61 hvs)
      rw [h0, Nat.sub_zero, List.take_length] at hvs2
      exact lookupAll_agree hvs hvs2
    · have h0 : padCount s = 0 := padCount_no61 s (lookupAll_no61 hvs2)
      rw [h0, Nat.sub_zero, List.take_length] at hvs
      exact lookupAll_agree hvs hvs2
    · exact lookupAll_agree hvs hvs2
  subst key
  rw [hd] at hd2
  exact (Option.some.injEq _ _).mp hd2

theorem b64encode_lt128 (u p : Bool) (b : List Nat) (hb : ∀ x ∈ b, x < 256) :
    ∀ c ∈ b64encode u p b, c < 128 := by
  intro c hc
  cases p with
  | false =>
    rcases List.mem_map.mp hc with ⟨v, hv, rfl⟩
    exact (b64Char_facts v (encVals_bound b hb v hv) u).2.2.1
  | true =>
    rcases List.mem_append.mp hc with hc1 | hc2
    · rcases List.mem_map.mp hc1 with ⟨v, hv, rfl⟩
      exact (b64Char_facts v (encVals_bound b hb v hv) u).2.2.1
    · have h61 : c = 61 := by
        split_ifs at hc2 <;> simp_all
      omega

theorem b64encode_not_ws (u p : Bool) (b : List Nat) (hb : ∀ x ∈ b, x < 256) :
    ∀ c ∈ b64encode u p b, isWsCp c = false := by
  intro c hc
  cases p with
  | false =>
    rcases List.mem_map.mp hc with ⟨v, hv, rfl⟩
    exact (b64Char_facts v (encVals_bound b hb v hv) u).2.2.2
  | true =>
    rcases List.mem_append.mp hc with hc1 | hc2
    · rcases List.mem_map.mp hc1 with ⟨v, hv, rfl⟩
      exact (b64Char_facts v (encVals_bound b hb v hv) u).2.2.2
    · have h61 : c = 61 := by
        split_ifs at hc2 <;> simp_all
      rw [h61]
      rfl

theorem try_base64_decode_eval (input cps : List Nat)
    (hu : utf8Decode input = some cps) :
    try_base64_decode input =
      match b64decodeCfg true false (trimEnd cps) with
      | some bytes => Except.ok bytes
      | none =>
        match b64decodeCfg false true (trimEnd cps) with
        | some bytes => Except.ok bytes
        | none =>
          match b64decodeCfg true true (trimEnd cps) with
          | some bytes => Except.ok bytes
          | none =>
            match b64decodeCfg false false (trimEnd cps) with
            | some bytes => Except.ok bytes
            | none => Except.error "Failed to decode base64" := by
  unfold try_base64_decode
  rw [hu]

/-- C4: for every byte sequence `b` and each of the four supported base64
variants, feeding the variant's encoding of `b` to the sniffer recovers
exactly `b` (whichever variant in the priority chain happens to match
first, the decoded bytes agree). -/
theorem claim_C4 (b : List Nat) (hb : ∀ x ∈ b, x < 256)
    (urlSafe padded : Bool) :
    try_base64_decode (b64encode urlSafe padded b) = Except.ok b := by
  have hself : b64decodeCfg urlSafe padded (b64encode urlSafe padded b) = some b := by
    cases padded
    · exact b64decode_encode_nopad urlSafe b hb
    · exact b64decode_encode_pad urlSafe b hb
  have hutf : utf8Decode (b64encode urlSafe padded b) =
      some (b64encode urlSafe padded b) :=
    utf8Decode_ascii _ (b64encode_lt128 urlSafe padded b hb)
  have htrim : trimEnd (b64encode urlSafe padded b) = b64encode urlSafe padded b :=
    trimEnd_of_all _ (b64encode_not_ws urlSafe padded b hb)
  rw [try_base64_decode_eval _ _ hutf, htrim]
  cases h1 : b64decodeCfg true false (b64encode urlSafe padded b) with
  | some x => rw [b64decodeCfg_agree h1 hself]
  | none =>
    cases h2 : b64decodeCfg false true (b64encode urlSafe padded b) with
    | some x => rw [b64decodeCfg_agree h2 hself]
    | none =>
      cases h3 : b64decodeCfg true true (b64encode urlSafe padded b) with
      | some x => rw [b64decodeCfg_agree h3 hself]
      | none =>
        cases h4 : b64decodeCfg false false (b64encode urlSafe padded b) with
        | some x => rw [b64decodeCfg_agree h4 hself]
        | none =>
          cases urlSafe <;> cases padded
          · rw [hself] at h4
            exact Option.noConfusion h4
          · rw [hself] at h2
            exact Option.noConfusion h2
          · rw [hself] at h1
            exact Option.noConfusion h1
          · rw [hself] at h3
            exact Option.noConfusion h3

/-- C4 witness: the sniffer inverts a concrete standard-alphabet padded
encoding. -/
theorem claim_C4_witness :
    try_base64_decode (b64encode false true [202]) = Except.ok [202] :=
  claim_C4 [202] (by decide) false true

/-- C6: whenever the input is valid UTF-8, the source's sniffer equals the
spec's description — strip trailing white-space, then return the first
success among the four variants in the documented priority order, never
consulting a later variant after a success (and the UTF-8-failure branch
agrees as well, so the two functions are equal on every input). -/
theorem claim_C6 (input : List Nat) : try_base64_decode input = snifferSpec input := by
  unfold try_base64_decode snifferSpec
  cases hu : utf8Decode input with
  | none => rfl
  | some cps =>
    simp only [firstSome]
    cases h1 : b64decodeCfg true false (trimEnd cps) with
    | some x => rfl
    | none =>
      cases h2 : b64decodeCfg false true (trimEnd cps) with
      | some x => rfl
      | none =>
        cases h3 : b64decodeCfg true true (trimEnd cps) with
        | some x => rfl
        | none =>
          cases h4 : b64decodeCfg false false (trimEnd cps) with
          | some x => rfl
          | none => rfl

/-- C7: an input that is not valid UTF-8 is passed unchanged to the CBOR
parser, and more generally any sniffing failure (UTF-8 or base64) triggers
the raw fallback rather than a pipeline error. -/
theorem claim_C7 :
    (∀ input, utf8Decode input = none →
      try_base64_decode input = Except.error "Failed to decode input as utf8" ∧
      decode input = try_cbor2json input) ∧
    (∀ input e, try_base64_decode input = Except.error e →
      decode input = try_cbor2json input) := by
  constructor
  · intro input hu
    have ht : try_base64_decode input =
        Except.error "Failed to decode input as utf8" := by
      unfold try_base64_decode
      rw [hu]
    refine ⟨ht, ?_⟩
    unfold decode
    rw [ht]
  · intro input e ht
    unfold decode
    rw [ht]

/-- C7 witness: the single byte `255` is not UTF-8 and falls back to raw
CBOR parsing. -/
theorem claim_C7_witness :
    try_base64_decode [255] = Except.error "Failed to decode input as utf8" ∧
    decode [255] = try_cbor2json [255] :=
  claim_C7.1 [255] (by rfl)

/-- C3: when some base64 variant succeeds, `decode` commits to the decoded
bytes — it is exactly `try_cbor2json` of those bytes, with no retry of a
later variant and no raw fallback; concretely, the raw input `"aw"`
(bytes 97, 119) is itself a well-formed CBOR text item rendering to
`"w"`, yet `decode` fails on it because the URL-safe-no-pad variant
decodes it to the byte 107, which is a truncated CBOR item. -/
theorem claim_C3 :
    (∀ input cbor, try_base64_decode input = Except.ok cbor →
      decode input = try_cbor2json cbor) ∧
    try_base64_decode [97, 119] = Except.ok [107] ∧
    decode [97, 119] = Except.error "Failed to decode CBOR" ∧
    try_cbor2json [97, 119] = Except.ok [34, 119, 34] := by
  refine ⟨?_, by rfl, by rfl, by rfl⟩
  intro input cbor h
  unfold decode
  rw [h]

/-- C3 witness: the commitment property applied at the concrete input
`"aw"`. -/
theorem claim_C3_witness : decode [97, 119] = try_cbor2json [107] :=
  claim_C3.1 [97, 119] [107] (by rfl)

theorem encArg_spec (major n : Nat) (hn : n < 2 ^ 64) (rest : List Nat) :
    ∃ ai tail, encArg major n = (major * 32 + ai) :: tail ∧ ai < 28 ∧
      readArg ai (tail ++ rest) = some (n, rest) := by
  unfold encArg
  split_ifs with h1 h2 h3 h4
  · refine ⟨n, [], rfl, by omega, ?_⟩
    unfold readArg
    rw [if_pos h1]
    rfl
  · refine ⟨24, [n], rfl, by omega, ?_⟩
    unfold readArg
    rw [if_neg (by omega), if_pos rfl]
    show (if 24 ≤ n then some (n, rest) else none) = some (n, rest)
    rw [if_pos (by omega)]
  · refine ⟨25, [n / 256, n % 256], rfl, by omega, ?_⟩
    unfold readArg
    rw [if_neg (by omega), if_neg (by omega), if_pos rfl]
    show (if 256 ≤ n / 256 * 256 + n % 256 then
        some (n / 256 * 256 + n % 256, rest) else none) = some (n, rest)
    split_ifs with hc
    · simp only [Option.some.injEq, Prod.mk.injEq]
      exact ⟨by omega, trivial⟩
    · exact absurd (by omega) hc
  · refine ⟨26, [n / 16777216 % 256, n / 65536 % 256, n / 256 % 256, n % 256],
      rfl, by omega, ?_⟩
    unfold readArg
    rw [if_neg (by omega), if_neg (by omega), if_neg (by omega), if_pos rfl]
    show (if 65536 ≤ n / 16777216 % 256 * 16777216 + n / 65536 % 256 * 65536 +
          n / 256 % 256 * 256 + n % 256 then
        some (n / 16777216 % 256 * 16777216 + n / 65536 % 256 * 65536 +
          n / 256 % 256 * 256 + n % 256, rest) else none) = some (n, rest)
    split_ifs with hc
    · simp only [Option.some.injEq, Prod.mk.injEq]
      exact ⟨by omega, trivial⟩
    · exact absurd (by omega) hc
  · refine ⟨27, be8 n, rfl, by omega, ?_⟩
    unfold readArg
    rw [if_neg (by omega), if_neg (by omega), if_neg (by omega), if_neg (by omega),
      if_pos rfl]
    simp only [be8, List.cons_append, List.nil_append]
    show (if 4294967296 ≤
          ((((((n / 2 ^ 56 % 256 * 256 + n / 2 ^ 48 % 256) * 256 + n / 2 ^ 40 % 256) *
            256 + n / 2 ^ 32 % 256) * 256 + n / 2 ^ 24 % 256) * 256 +
            n / 2 ^ 16 % 256) * 256 + n / 2 ^ 8 % 256) * 256 + n % 256 then
        some (((((((n / 2 ^ 56 % 256 * 256 + n / 2 ^ 48 % 256) * 256 +
          n / 2 ^ 40 % 256) * 256 + n / 2 ^ 32 % 256) * 256 + n / 2 ^ 24 % 256) *
          256 + n / 2 ^ 16 % 256) * 256 + n / 2 ^ 8 % 256) * 256 + n % 256, rest)
        else none) = some (n, rest)
    split_ifs with hc
    · simp only [Option.some.injEq, Prod.mk.injEq]
      exact ⟨by omega, trivial⟩
    · exact absurd (by omega) hc

theorem wfSeq_mem {l : List JValue} (h : wfSeq l = true) :
    ∀ v ∈ l, wfJ v = true := by
  induction l with
  | nil =>
    intro v hv
    simp at hv
  | cons a r ih =>
    rw [wfSeq, Bool.and_eq_true] at h
    intro v hv
    rcases List.mem_cons.mp hv with rfl | hv2
    · exact h.1
    · exact ih h.2 v hv2

theorem wfFields_mem {l : List (List Nat × JValue)} (h : wfFields l = true) :
    ∀ kv ∈ l, (utf8Decode kv.1).isSome = true ∧ kv.1.length < 2 ^ 64 ∧
      wfJ kv.2 = true := by
  induction l with
  | nil =>
    intro kv hkv
    simp at hkv
  | cons a r ih =>
    rcases a with ⟨k, v⟩
    rw [wfFields] at h
    simp only [Bool.and_eq_true, decide_eq_true_eq] at h
    intro kv hkv
    rcases List.mem_cons.mp hkv with rfl | hkv2
    · exact ⟨h.1.1.1, h.1.1.2, h.1.2⟩
    · exact ih h.2 kv hkv2

theorem one_le_needJ (v : JValue) : 1 ≤ needJ v := by
  cases v <;> simp [needJ]

theorem decItem_text (k : List Nat) (g : Nat) (rest : List Nat)
    (hutf : (utf8Decode k).isSome = true) (hlen : k.length < 2 ^ 64)
    (hg : 1 ≤ g) :
    decItem g ((encArg 3 k.length ++ k) ++ rest) = some (CValue.textV k, rest) := by
  rcases encArg_spec 3 k.length hlen (k ++ rest) with ⟨ai, tail, henc, hai, hread⟩
  cases g with
  | zero => omega
  | succ g' =>
    rw [henc, List.append_assoc, List.cons_append]
    rw [decItem]
    rw [if_neg (by omega), if_neg (by omega), if_neg (by omega),
      if_pos (by omega : (3 * 32 + ai) / 32 = 3)]
    have hmod : (3 * 32 + ai) % 32 = ai := by omega
    rw [hmod, hread, Option.some_bind]
    show (if k.length ≤ (k ++ rest).length ∧
        (utf8Decode ((k ++ rest).take k.length)).isSome = true then
      some (CValue.textV ((k ++ rest).take k.length), (k ++ rest).drop k.length)
      else none) = some (CValue.textV k, rest)
    rw [List.take_left, List.drop_left]
    rw [if_pos ⟨by simp, hutf⟩]

theorem decSeq_enc (l : List JValue) :
    ∀ f rest, needSeq l ≤ f →
    (∀ v ∈ l, ∀ g rest2, needJ v ≤ g →
      decItem g (encItem v ++ rest2) = some (toC v, rest2)) →
    decSeq f l.length (encSeqJ l ++ rest) = some (toCSeq l, rest) := by
  induction l with
  | nil =>
    intro f rest hf hall
    cases f with
    | zero => simp [needSeq] at hf
    | succ f' => rfl
  | cons v r ih =>
    intro f rest hf hall
    cases f with
    | zero => simp [needSeq] at hf
    | succ f' =>
      rw [needSeq, Nat.add_le_add_iff_right, Nat.max_le] at hf
      show decSeq (f' + 1) (r.length + 1) ((encItem v ++ encSeqJ r) ++ rest) =
        some (toC v :: toCSeq r, rest)
      rw [decSeq, List.append_assoc,
        hall v (List.mem_cons_self v r) f' (encSeqJ r ++ rest) hf.1,
        Option.some_bind,
        ih f' rest hf.2 (fun w hw => hall w (List.mem_cons_of_mem _ hw))]
      rfl

theorem decPairs_enc (l : List (List Nat × JValue)) :
    ∀ f rest, needFields l ≤ f → wfFields l = true →
    (∀ kv ∈ l, ∀ g rest2, needJ kv.2 ≤ g →
      decItem g (encItem kv.2 ++ rest2) = some (toC kv.2, rest2)) →
    decPairs f l.length (encPairsJ l ++ rest) = some (toCFields l, rest) := by
  induction l with
  | nil =>
    intro f rest hf hwf hall
    cases f with
    | zero => simp [needFields] at hf
    | succ f' => rfl
  | cons kv r ih =>
    intro f rest hf hwf hall
    rcases kv with ⟨k, v⟩
    cases f with
    | zero => simp [needFields] at hf
    | succ f' =>
      rw [needFields, Nat.add_le_add_iff_right, Nat.max_le] at hf
      rw [wfFields] at hwf
      simp only [Bool.and_eq_true, decide_eq_true_eq] at hwf
      show decPairs (f' + 1) (r.length + 1)
          (((encArg 3 k.length ++ k) ++ encItem v ++ encPairsJ r) ++ rest) =
        some ((CValue.textV k, toC v) :: toCFields r, rest)
      rw [decPairs]
      have hkey : decItem f' (((encArg 3 k.length ++ k)) ++
          (encItem v ++ (encPairsJ r ++ rest))) =
          some (CValue.textV k, encItem v ++ (encPairsJ r ++ rest)) :=
        decItem_text k f' _ hwf.1.1.1 hwf.1.1.2
          (le_trans (one_le_needJ v) hf.1)
      rw [List.append_assoc] at hkey
      rw [List.append_assoc, List.append_assoc, List.append_assoc, hkey,
        Option.some_bind,
        hall ⟨k, v⟩ (List.mem_cons_self _ r) f' (encPairsJ r ++ rest) hf.1,
        Option.some_bind,
        ih f' rest hf.2 hwf.2 (fun w hw => hall w (List.mem_cons_of_mem _ hw))]
      rfl

theorem decItem_encItem :
    ∀ (N : Nat) (v : JValue), sizeOf v ≤ N → wfJ v = true →
    ∀ g rest, needJ v ≤ g → decItem g (encItem v ++ rest) = some (toC v, rest) := by
  intro N
  induction N with
  | zero =>
    intro v hsz
    exfalso
    cases v <;> simp at hsz
  | succ N ih =>
    intro v hsz hwf g rest hg
    have hg1 : 1 ≤ g := le_trans (one_le_needJ v) hg
    cases g with
    | zero => omega
    | succ g' =>
      cases v with
      | nullJ => rfl
      | boolJ bb => cases bb <;> rfl
      | intJ n =>
        rw [wfJ] at hwf
        simp only [Bool.and_eq_true, decide_eq_true_eq] at hwf
        by_cases h0 : 0 ≤ n
        · have henc : encItem (.intJ n) = encArg 0 n.toNat := by
            rw [encItem, if_pos h0]
          rcases encArg_spec 0 n.toNat (by omega) rest with ⟨ai, tail, harg, hai, hread⟩
          rw [henc, harg, List.cons_append, decItem]
          rw [if_pos (by omega : (0 * 32 + ai) / 32 = 0)]
          have hmod : (0 * 32 + ai) % 32 = ai := by omega
          rw [hmod, hread]
          simp only [Option.map_some']
          show some (CValue.intV (n.toNat : Int), rest) = some (CValue.intV n, rest)
          rw [Int.toNat_of_nonneg h0]
        · have henc : encItem (.intJ n) = encArg 1 (-1 - n).toNat := by
            rw [encItem, if_neg h0]
          rcases encArg_spec 1 (-1 - n).toNat (by omega) rest with ⟨ai, tail, harg, hai, hread⟩
          rw [henc, harg, List.cons_append, decItem]
          rw [if_neg (by omega), if_pos (by omega : (1 * 32 + ai) / 32 = 1)]
          have hmod : (1 * 32 + ai) % 32 = ai := by omega
          rw [hmod, hread]
          simp only [Option.map_some']
          show some (CValue.intV (-1 - ((-1 - n).toNat : Int)), rest) =
            some (CValue.intV n, rest)
          have he : (-1 : Int) - ((-1 - n).toNat : Int) = n := by omega
          rw [he]
      | floatJ bits =>
        rw [wfJ] at hwf
        simp only [decide_eq_true_eq] at hwf
        show decItem (g' + 1) ((251 :: be8 bits) ++ rest) =
          some (CValue.floatV bits, rest)
        rw [List.cons_append, decItem]
        rw [if_neg (by omega), if_neg (by omega), if_neg (by omega),
          if_neg (by omega), if_neg (by omega), if_neg (by omega),
          if_neg (by omega)]
        show decMisc (251 % 32) (be8 bits ++ rest) = some (CValue.floatV bits, rest)
        unfold decMisc
        rw [if_neg (by omega), if_neg (by omega), if_neg (by omega),
          if_neg (by omega), if_neg (by omega), if_pos rfl]
        simp only [be8, List.cons_append, List.nil_append]
        show some (CValue.floatV
            (((((((bits / 2 ^ 56 % 256 * 256 + bits / 2 ^ 48 % 256) * 256 +
              bits / 2 ^ 40 % 256) * 256 + bits / 2 ^ 32 % 256) * 256 +
              bits / 2 ^ 24 % 256) * 256 + bits / 2 ^ 16 % 256) * 256 +
              bits / 2 ^ 8 % 256) * 256 + bits % 256), rest) =
          some (CValue.floatV bits, rest)
        simp only [Option.some.injEq, Prod.mk.injEq, CValue.floatV.injEq]
        exact ⟨by omega, trivial⟩
      | strJ s =>
        rw [wfJ] at hwf
        simp only [Bool.and_eq_true, decide_eq_true_eq] at hwf
        show decItem (g' + 1) ((encArg 3 s.length ++ s) ++ rest) =
          some (CValue.textV s, rest)
        exact decItem_text s (g' + 1) rest hwf.1 hwf.2 (by omega)
      | arrJ items =>
        rw [wfJ] at hwf
        simp only [Bool.and_eq_true, decide_eq_true_eq] at hwf
        rcases encArg_spec 4 items.length hwf.1 (encSeqJ items ++ rest) with
          ⟨ai, tail, harg, hai, hread⟩
        show decItem (g' + 1) ((encArg 4 items.length ++ encSeqJ items) ++ rest) =
          some (CValue.arrV (toCSeq items), rest)
        rw [List.append_assoc, harg, List.cons_append, decItem]
        rw [if_neg (by omega), if_neg (by omega), if_neg (by omega),
          if_neg (by omega), if_pos (by omega : (4 * 32 + ai) / 32 = 4)]
        have hmod : (4 * 32 + ai) % 32 = ai := by omega
        rw [hmod, hread, Option.some_bind]
        have hneed : needSeq items ≤ g' := by
          simp only [needJ] at hg
          omega
        have hall : ∀ w ∈ items, ∀ g2 rest2, needJ w ≤ g2 →
            decItem g2 (encItem w ++ rest2) = some (toC w, rest2) := by
          intro w hw g2 rest2 hg2
          have h1 := List.sizeOf_lt_of_mem hw
          have h2 : sizeOf (JValue.arrJ items) = 1 + sizeOf items := by simp
          exact ih w (by omega) (wfSeq_mem hwf.2 w hw) g2 rest2 hg2
        rw [decSeq_enc items g' rest hneed hall]
        rfl
      | objJ fields =>
        rw [wfJ] at hwf
        simp only [Bool.and_eq_true, decide_eq_true_eq] at hwf
        rcases encArg_spec 5 fields.length hwf.1 (encPairsJ fields ++ rest) with
          ⟨ai, tail, harg, hai, hread⟩
        show decItem (g' + 1) ((encArg 5 fields.length ++ encPairsJ fields) ++ rest) =
          some (CValue.mapV (toCFields fields), rest)
        rw [List.append_assoc, harg, List.cons_append, decItem]
        rw [if_neg (by omega), if_neg (by omega), if_neg (by omega),
          if_neg (by omega), if_neg (by omega),
          if_pos (by omega : (5 * 32 + ai) / 32 = 5)]
        have hmod : (5 * 32 + ai) % 32 = ai := by omega
        rw [hmod, hread, Option.some_bind]
        have hneed : needFields fields ≤ g' := by
          simp only [needJ] at hg
          omega
        have hall : ∀ kv ∈ fields, ∀ g2 rest2, needJ kv.2 ≤ g2 →
            decItem g2 (encItem kv.2 ++ rest2) = some (toC kv.2, rest2) := by
          intro kv hkv g2 rest2 hg2
          have h1 := List.sizeOf_lt_of_mem hkv
          have h2 : sizeOf (JValue.objJ fields) = 1 + sizeOf fields := by simp
          have h3 : sizeOf kv.2 < sizeOf kv := by
            rcases kv with ⟨k, w⟩
            simp
          exact ih kv.2 (by omega) ((wfFields_mem hwf.2 kv hkv).2.2) g2 rest2 hg2
        rw [decPairs_enc fields g' rest hneed hwf.2 hall]
        rfl

theorem encArg_length_pos (major n : Nat) : 1 ≤ (encArg major n).length := by
  unfold encArg
  split_ifs <;> simp [be8]

theorem encItem_length_pos (v : JValue) : 1 ≤ (encItem v).length := by
  cases v with
  | nullJ => simp [encItem]
  | boolJ bb => cases bb <;> simp [encItem]
  | intJ n =>
    rw [encItem]
    split_ifs
    · exact encArg_length_pos 0 n.toNat
    · exact encArg_length_pos 1 (-1 - n).toNat
  | floatJ bits => simp [encItem]
  | strJ s =>
    show 1 ≤ (encArg 3 s.length ++ s).length
    have := encArg_length_pos 3 s.length
    simp only [List.length_append]
    omega
  | arrJ items =>
    show 1 ≤ (encArg 4 items.length ++ encSeqJ items).length
    have := encArg_length_pos 4 items.length
    simp only [List.length_append]
    omega
  | objJ fields =>
    show 1 ≤ (encArg 5 fields.length ++ encPairsJ fields).length
    have := encArg_length_pos 5 fields.length
    simp only [List.length_append]
    omega

theorem needSeq_le (l : List JValue)
    (hall : ∀ v ∈ l, needJ v ≤ 2 * (encItem v).length) :
    needSeq l ≤ 2 * (encSeqJ l).length + 1 := by
  induction l with
  | nil => simp [needSeq, encSeqJ]
  | cons v r ih =>
    rw [needSeq, encSeqJ]
    have h1 := hall v (List.mem_cons_self v r)
    have h2 := ih (fun w hw => hall w (List.mem_cons_of_mem _ hw))
    have h3 := encItem_length_pos v
    have hm : max (needJ v) (needSeq r) ≤
        2 * ((encItem v).length + (encSeqJ r).length) :=
      Nat.max_le.mpr ⟨by omega, by omega⟩
    simp only [List.length_append]
    omega

theorem needFields_le (l : List (List Nat × JValue))
    (hall : ∀ kv ∈ l, needJ kv.2 ≤ 2 * (encItem kv.2).length) :
    needFields l ≤ 2 * (encPairsJ l).length + 1 := by
  induction l with
  | nil => simp [needFields, encPairsJ]
  | cons kv r ih =>
    rcases kv with ⟨k, v⟩
    rw [needFields, encPairsJ]
    have h1 : needJ v ≤ 2 * (encItem v).length :=
      hall ⟨k, v⟩ (List.mem_cons_self _ r)
    have h2 := ih (fun w hw => hall w (List.mem_cons_of_mem _ hw))
    have h3 := encItem_length_pos v
    have h4 := encArg_length_pos 3 k.length
    have hm : max (needJ v) (needFields r) ≤
        2 * ((encItem v).length + (encPairsJ r).length) :=
      Nat.max_le.mpr ⟨by omega, by omega⟩
    simp only [List.length_append]
    omega

theorem needJ_le (N : Nat) :
    ∀ v : JValue, sizeOf v ≤ N → needJ v ≤ 2 * (encItem v).length := by
  induction N with
  | zero =>
    intro v hsz
    exfalso
    cases v <;> simp at hsz
  | succ N ih =>
    intro v hsz
    have hpos := encItem_length_pos v
    cases v with
    | nullJ => simp only [needJ]; omega
    | boolJ bb => simp only [needJ]; omega
    | intJ n => simp only [needJ]; omega
    | floatJ bits => simp only [needJ]; omega
    | strJ s => simp only [needJ]; omega
    | arrJ items =>
      have hs : needSeq items ≤ 2 * (encSeqJ items).length + 1 := by
        refine needSeq_le items (fun w hw => ?_)
        have h1 := List.sizeOf_lt_of_mem hw
        have h2 : sizeOf (JValue.arrJ items) = 1 + sizeOf items := by simp
        exact ih w (by omega)
      have hlen : (encItem (JValue.arrJ items)).length =
          (encArg 4 items.length).length + (encSeqJ items).length := by
        show (encArg 4 items.length ++ encSeqJ items).length = _
        simp [List.length_append]
      have h4 := encArg_length_pos 4 items.length
      simp only [needJ]
      omega
    | objJ fields =>
      have hs : needFields fields ≤ 2 * (encPairsJ fields).length + 1 := by
        refine needFields_le fields (fun kv hkv => ?_)
        have h1 := List.sizeOf_lt_of_mem hkv
        have h2 : sizeOf (JValue.objJ fields) = 1 + sizeOf fields := by simp
        have h3 : sizeOf kv.2 < sizeOf kv := by
          rcases kv with ⟨k, w⟩
          simp
        exact ih kv.2 (by omega)
      have hlen : (encItem (JValue.objJ fields)).length =
          (encArg 5 fields.length).length + (encPairsJ fields).length := by
        show (encArg 5 fields.length ++ encPairsJ fields).length = _
        simp [List.length_append]
      have h4 := encArg_length_pos 5 fields.length
      simp only [needJ]
      omega

theorem cborParse_encItem (v : JValue) (hwf : wfJ v = true) :
    cborParse (encItem v) = some (toC v) := by
  unfold cborParse
  have hb := needJ_le (sizeOf v) v le_rfl
  have h := decItem_encItem (sizeOf v) v le_rfl hwf
    (2 * (encItem v).length + 2) [] (by omega)
  rw [List.append_nil] at h
  rw [h]

theorem renderSeq_toCSeq (l : List JValue)
    (hall : ∀ v ∈ l, renderTextVal (toC v) = some v) :
    renderSeq (toCSeq l) = some l := by
  induction l with
  | nil => rfl
  | cons v r ih =>
    rw [toCSeq, renderSeq, hall v (List.mem_cons_self v r),
      ih (fun w hw => hall w (List.mem_cons_of_mem _ hw))]
    rfl

theorem renderPairs_toCFields (l : List (List Nat × JValue))
    (hall : ∀ kv ∈ l, renderTextVal (toC kv.2) = some kv.2) :
    renderPairs (toCFields l) = some l := by
  induction l with
  | nil => rfl
  | cons kv r ih =>
    rcases kv with ⟨k, v⟩
    have h1 : renderTextVal (toC v) = some v :=
      hall ⟨k, v⟩ (List.mem_cons_self _ r)
    rw [toCFields, renderPairs, h1,
      ih (fun w hw => hall w (List.mem_cons_of_mem _ hw))]
    rfl

theorem renderTextVal_toC (N : Nat) :
    ∀ v : JValue, sizeOf v ≤ N → renderTextVal (toC v) = some v := by
  induction N with
  | zero =>
    intro v hsz
    exfalso
    cases v <;> simp at hsz
  | succ N ih =>
    intro v hsz
    cases v with
    | nullJ => rfl
    | boolJ bb => rfl
    | intJ n => rfl
    | floatJ bits => rfl
    | strJ s => rfl
    | arrJ items =>
      show renderTextVal (CValue.arrV (toCSeq items)) = some (JValue.arrJ items)
      rw [renderTextVal, renderSeq_toCSeq items (fun w hw => by
        have h1 := List.sizeOf_lt_of_mem hw
        have h2 : sizeOf (JValue.arrJ items) = 1 + sizeOf items := by simp
        exact ih w (by omega))]
      rfl
    | objJ fields =>
      show renderTextVal (CValue.mapV (toCFields fields)) = some (JValue.objJ fields)
      rw [renderTextVal, renderPairs_toCFields fields (fun kv hkv => by
        have h1 := List.sizeOf_lt_of_mem hkv
        have h2 : sizeOf (JValue.objJ fields) = 1 + sizeOf fields := by simp
        have h3 : sizeOf kv.2 < sizeOf kv := by
          rcases kv with ⟨k, w⟩
          simp
        exact ih kv.2 (by omega))]
      rfl

theorem canonSeq_eq (l : List JValue)
    (hall : ∀ v ∈ l, canonicalizeJ v = v) : canonSeq l = l := by
  induction l with
  | nil => rfl
  | cons v r ih =>
    rw [canonSeq, hall v (List.mem_cons_self v r),
      ih (fun w hw => hall w (List.mem_cons_of_mem _ hw))]

theorem canonFields_eq (l : List (List Nat × JValue))
    (hall : ∀ kv ∈ l, canonicalizeJ kv.2 = kv.2) : canonFields l = l := by
  induction l with
  | nil => rfl
  | cons kv r ih =>
    rcases kv with ⟨k, v⟩
    have h1 : canonicalizeJ v = v := hall ⟨k, v⟩ (List.mem_cons_self _ r)
    rw [canonFields, h1,
      ih (fun w hw => hall w (List.mem_cons_of_mem _ hw))]

theorem canonicalizeJ_eq_self (N : Nat) :
    ∀ v : JValue, sizeOf v ≤ N → canonicalizeJ v = v := by
  induction N with
  | zero =>
    intro v hsz
    exfalso
    cases v <;> simp at hsz
  | succ N ih =>
    intro v hsz
    cases v with
    | nullJ => rfl
    | boolJ bb => rfl
    | intJ n => rfl
    | floatJ bits => rfl
    | strJ s => rfl
    | arrJ items =>
      rw [canonicalizeJ, canonSeq_eq items (fun w hw => by
        have h1 := List.sizeOf_lt_of_mem hw
        have h2 : sizeOf (JValue.arrJ items) = 1 + sizeOf items := by simp
        exact ih w (by omega))]
    | objJ fields =>
      rw [canonicalizeJ, canonFields_eq fields (fun kv hkv => by
        have h1 := List.sizeOf_lt_of_mem hkv
        have h2 : sizeOf (JValue.objJ fields) = 1 + sizeOf fields := by simp
        have h3 : sizeOf kv.2 < sizeOf kv := by
          rcases kv with ⟨k, w⟩
          simp
        exact ih kv.2 (by omega))]

/-- C8: `renderBinary` is total on well-formed text-model values — it is a
plain Lean function producing bytes — and its output always parses back as
a single well-formed binary item (the value's image in the binary model),
so the encoder's failure branch is unreachable. -/
theorem claim_C8 (v : JValue) (hwf : wfJ v = true) :
    cborParse (encItem v) = some (toC v) :=
  cborParse_encItem v hwf

/-- C8 witness: the encoder succeeds on a concrete tree. -/
theorem claim_C8_witness :
    cborParse (encItem (JValue.objJ [([107], JValue.strJ [118])])) =
      some (toC (JValue.objJ [([107], JValue.strJ [118])])) :=
  claim_C8 (JValue.objJ [([107], JValue.strJ [118])]) (by rfl)

/-- C5: for every well-formed text-model value `t` (the parse of a valid
JSON document), the full pipeline — serialize to binary, parse the binary,
render as text — succeeds and equals the serialization of the
canonicalization of `t`; on text-model trees the documented coercions are
vacuous, so key order, array order and every value are preserved
exactly. -/
theorem claim_C5 (t : JValue) (hwf : wfJ t = true) :
    try_cbor2json (encItem t) = Except.ok (jsonToString (canonicalizeJ t)) := by
  unfold try_cbor2json
  rw [cborParse_encItem t hwf]
  show (match renderTextVal (toC t) with
    | none => Except.error "Failed to encode JSON"
    | some j => Except.ok (jsonToString j)) =
    Except.ok (jsonToString (canonicalizeJ t))
  rw [renderTextVal_toC (sizeOf t) t le_rfl,
    canonicalizeJ_eq_self (sizeOf t) t le_rfl]

/-- C5 witness: the round trip at a concrete document containing an
object, an array, a string, integers, a float and booleans. -/
theorem claim_C5_witness :
    try_cbor2json (encItem (JValue.arrJ [JValue.objJ [([107], JValue.strJ [118])],
        JValue.boolJ true, JValue.intJ (-5), JValue.floatJ 4607182418800017408])) =
      Except.ok (jsonToString (canonicalizeJ
        (JValue.arrJ [JValue.objJ [([107], JValue.strJ [118])],
          JValue.boolJ true, JValue.intJ (-5), JValue.floatJ 4607182418800017408]))) :=
  claim_C5 _ (by rfl)

/-- C9: encoding the text `\x7b"k":"v"\x7d` (code points 123, 34, 107, 34,
58, 34, 118, 34, 125) produces exactly the bytes 161, 97, 107, 97, 118,
and decoding exactly those five bytes produces that same text. -/
theorem claim_C9 :
    json2cbor [123, 34, 107, 34, 58, 34, 118, 34, 125] =
      some [161, 97, 107, 97, 118] ∧
    decode [161, 97, 107, 97, 118] =
      Except.ok [123, 34, 107, 34, 58, 34, 118, 34, 125] :=
  ⟨rfl, rfl⟩

/-- C2: `parseBinary` fails whenever bytes remain after the first complete
item, and whenever no well-formed item can be read — concretely on a
truncated argument (`[24]`), a reserved additional-information value
(`[28]`), a non-canonical length prefix (`[24, 5]`), a trailing byte
(`[246, 0]`) and the empty input. -/
theorem claim_C2 :
    (∀ bytes v rest, decItem (2 * bytes.length + 2) bytes = some (v, rest) →
      rest ≠ [] → cborParse bytes = none) ∧
    (∀ bytes, decItem (2 * bytes.length + 2) bytes = none →
      cborParse bytes = none) ∧
    cborParse [24] = none ∧
    cborParse [28] = none ∧
    cborParse [24, 5] = none ∧
    cborParse [246, 0] = none ∧
    cborParse [] = none := by
  refine ⟨?_, ?_, rfl, rfl, rfl, rfl, rfl⟩
  · intro bytes v rest h hne
    unfold cborParse
    rw [h]
    cases rest with
    | nil => exact absurd rfl hne
    | cons a r => rfl
  · intro bytes h
    unfold cborParse
    rw [h]

/-- C2 witness: a well-formed null item followed by a trailing byte is
rejected. -/
theorem claim_C2_witness : cborParse [246, 0] = none :=
  claim_C2.1 [246, 0] CValue.nullV [0] (by rfl) (by simp)

theorem keyToText_isSome (k : CValue) : (keyToText k).isSome = !isStructKey k := by
  cases k with
  | nullV => rfl
  | boolV bb => cases bb <;> rfl
  | intV n => rfl
  | floatV bits => rfl
  | textV s => rfl
  | bytesV b => rfl
  | arrV items => rfl
  | mapV pairs => rfl

theorem renderSeq_isSome (l : List CValue)
    (hall : ∀ v ∈ l, (renderTextVal v).isSome = !hasBadKey v) :
    (renderSeq l).isSome = !hasBadKeySeq l := by
  induction l with
  | nil => rfl
  | cons v r ih =>
    have h1 := hall v (List.mem_cons_self v r)
    have h2 := ih (fun w hw => hall w (List.mem_cons_of_mem _ hw))
    rw [renderSeq, hasBadKeySeq]
    cases hv : renderTextVal v <;> cases hr : renderSeq r <;> simp_all

theorem renderPairs_isSome (l : List (CValue × CValue))
    (hall : ∀ kv ∈ l, (renderTextVal kv.2).isSome = !hasBadKey kv.2) :
    (renderPairs l).isSome = !hasBadKeyPairs l := by
  induction l with
  | nil => rfl
  | cons kv r ih =>
    rcases kv with ⟨k, v⟩
    have h1 : (renderTextVal v).isSome = !hasBadKey v :=
      hall ⟨k, v⟩ (List.mem_cons_self _ r)
    have h2 := ih (fun w hw => hall w (List.mem_cons_of_mem _ hw))
    have h0 := keyToText_isSome k
    rw [renderPairs, hasBadKeyPairs]
    cases hk : keyToText k <;> cases hv : renderTextVal v <;>
      cases hr : renderPairs r <;> simp_all

theorem renderVal_isSome (N : Nat) :
    ∀ v : CValue, sizeOf v ≤ N → (renderTextVal v).isSome = !hasBadKey v := by
  induction N with
  | zero =>
    intro v hsz
    exfalso
    cases v <;> simp at hsz
  | succ N ih =>
    intro v hsz
    cases v with
    | nullV => rfl
    | boolV bb => rfl
    | intV n => rfl
    | floatV bits => rfl
    | textV s => rfl
    | bytesV b => rfl
    | arrV items =>
      rw [renderTextVal, hasBadKey]
      have hmap : (Option.map JValue.arrJ (renderSeq items)).isSome =
          (renderSeq items).isSome := by
        cases renderSeq items <;> rfl
      rw [hmap, renderSeq_isSome items (fun w hw => by
        have hm1 := List.sizeOf_lt_of_mem hw
        have hm2 : sizeOf (CValue.arrV items) = 1 + sizeOf items := by simp
        exact ih w (by omega))]
    | mapV pairs =>
      rw [renderTextVal, hasBadKey]
      have hmap : (Option.map JValue.objJ (renderPairs pairs)).isSome =
          (renderPairs pairs).isSome := by
        cases renderPairs pairs <;> rfl
      rw [hmap, renderPairs_isSome pairs (fun kv hkv => by
        have hm1 := List.sizeOf_lt_of_mem hkv
        have hm2 : sizeOf (CValue.mapV pairs) = 1 + sizeOf pairs := by simp
        have hm3 : sizeOf kv.2 < sizeOf kv := by
          rcases kv with ⟨k, w⟩
          simp
        exact ih kv.2 (by omega))]

theorem isScalar_not_struct (k : CValue) (h : isScalarKey k = true) :
    isStructKey k = false := by
  cases k <;> simp_all [isScalarKey, isStructKey]

theorem allScalar_no_badSeq (l : List CValue)
    (hall : ∀ v ∈ l, allScalarKeys v = true → hasBadKey v = false)
    (hsc : allScalarKeysSeq l = true) : hasBadKeySeq l = false := by
  induction l with
  | nil => rfl
  | cons v r ih =>
    rw [allScalarKeysSeq, Bool.and_eq_true] at hsc
    rw [hasBadKeySeq, hall v (List.mem_cons_self v r) hsc.1,
      ih (fun w hw => hall w (List.mem_cons_of_mem _ hw)) hsc.2]
    rfl

theorem allScalar_no_badPairs (l : List (CValue × CValue))
    (hall : ∀ kv ∈ l, allScalarKeys kv.2 = true → hasBadKey kv.2 = false)
    (hsc : allScalarKeysPairs l = true) : hasBadKeyPairs l = false := by
  induction l with
  | nil => rfl
  | cons kv r ih =>
    rcases kv with ⟨k, v⟩
    rw [allScalarKeysPairs, Bool.and_eq_true, Bool.and_eq_true] at hsc
    have h1 : hasBadKey v = false :=
      hall ⟨k, v⟩ (List.mem_cons_self _ r) hsc.1.2
    rw [hasBadKeyPairs, h1, isScalar_not_struct k hsc.1.1,
      ih (fun w hw => hall w (List.mem_cons_of_mem _ hw)) hsc.2]
    rfl

theorem allScalar_no_bad (N : Nat) :
    ∀ v : CValue, sizeOf v ≤ N → allScalarKeys v = true → hasBadKey v = false := by
  induction N with
  | zero =>
    intro v hsz
    exfalso
    cases v <;> simp at hsz
  | succ N ih =>
    intro v hsz hsc
    cases v with
    | nullV => rfl
    | boolV bb => rfl
    | intV n => rfl
    | floatV bits => rfl
    | textV s => rfl
    | bytesV b => rfl
    | arrV items =>
      rw [hasBadKey]
      exact allScalar_no_badSeq items (fun w hw => by
        have hm1 := List.sizeOf_lt_of_mem hw
        have hm2 : sizeOf (CValue.arrV items) = 1 + sizeOf items := by simp
        exact ih w (by omega)) hsc
    | mapV pairs =>
      rw [hasBadKey]
      exact allScalar_no_badPairs pairs (fun kv hkv => by
        have hm1 := List.sizeOf_lt_of_mem hkv
        have hm2 : sizeOf (CValue.mapV pairs) = 1 + sizeOf pairs := by simp
        have hm3 : sizeOf kv.2 < sizeOf kv := by
          rcases kv with ⟨k, w⟩
          simp
        exact ih kv.2 (by omega)) hsc

/-- C1: rendering a binary value to text succeeds whenever every map key
is a scalar (Text, Integer, Bool or Float); it fails exactly when some map
contains a structurally non-scalar key (Array or Map); and scalar keys are
coerced to their canonical text form — the integer key 5 yields the object
key "5". -/
theorem claim_C1 :
    (∀ v, allScalarKeys v = true → (renderText v).isSome = true) ∧
    (∀ v, (renderText v).isSome = true ↔ hasBadKey v = false) ∧
    renderText (CValue.mapV [(CValue.intV 5, CValue.nullV)]) =
      some [123, 34, 53, 34, 58, 110, 117, 108, 108, 125] := by
  have hiff : ∀ v : CValue, (renderText v).isSome = !hasBadKey v := by
    intro v
    have h := renderVal_isSome (sizeOf v) v le_rfl
    unfold renderText
    cases hv : renderTextVal v with
    | none =>
      rw [hv] at h
      exact h
    | some j =>
      rw [hv] at h
      exact h
  refine ⟨?_, ?_, by rfl⟩
  · intro v hsc
    rw [hiff v, allScalar_no_bad (sizeOf v) v le_rfl hsc]
    rfl
  · intro v
    rw [hiff v]
    cases hasBadKey v <;> simp

/-- C1 witness: a map whose keys are an integer and a float renders
successfully. -/
theorem claim_C1_witness :
    (renderText (CValue.mapV [(CValue.intV 5, CValue.nullV),
      (CValue.floatV 0, CValue.boolV true)])).isSome = true :=
  claim_C1.1 _ (by rfl)

theorem utf8DecodeF_irrel : ∀ (fuel fuel' : Nat) (l : List Nat),
    l.length ≤ fuel → l.length ≤ fuel' → utf8DecodeF fuel l = utf8DecodeF fuel' l := by
  intro fuel
  induction fuel with
  | zero =>
    intro fuel' l h h'
    cases l with
    | nil => cases fuel' <;> rfl
    | cons b rest => simp at h
  | succ f ih =>
    intro fuel' l h h'
    cases l with
    | nil => cases fuel' <;> rfl
    | cons b rest =>
      cases fuel' with
      | zero => simp at h'
      | succ f' =>
        rw [utf8DecodeF, utf8DecodeF]
        cases hh : utf8Head b rest with
        | none => rfl
        | some p =>
          rcases p with ⟨c, n⟩
          show (utf8DecodeF f (rest.drop n)).map (c :: ·) =
            (utf8DecodeF f' (rest.drop n)).map (c :: ·)
          rw [ih f' (rest.drop n)
            (by simp only [List.length_drop]; simp at h; omega)
            (by simp only [List.length_drop]; simp at h'; omega)]

theorem utf8Decode_cons (c : Nat) (hc : c < 55296) (l : List Nat) :
    utf8Decode (cpToUtf8 c ++ l) = (utf8Decode l).map (c :: ·) := by
  by_cases h1 : c < 128
  · have he : cpToUtf8 c = [c] := by rw [cpToUtf8, if_pos h1]
    rw [he]
    show utf8DecodeF (l.length + 1) (c :: l) = (utf8Decode l).map (c :: ·)
    rw [utf8DecodeF]
    have hh : utf8Head c l = some (c, 0) := by
      unfold utf8Head
      rw [if_pos h1]
    rw [hh]
    show (utf8DecodeF l.length (l.drop 0)).map (c :: ·) = (utf8Decode l).map (c :: ·)
    rw [List.drop_zero]
    rfl
  · by_cases h2 : c < 2048
    · have he : cpToUtf8 c = [192 + c / 64, 128 + c % 64] := by
        rw [cpToUtf8, if_neg h1, if_pos h2]
      rw [he]
      show utf8DecodeF (l.length + 1 + 1) ((192 + c / 64) :: (128 + c % 64) :: l) =
        (utf8Decode l).map (c :: ·)
      rw [utf8DecodeF]
      have hh : utf8Head (192 + c / 64) ((128 + c % 64) :: l) = some (c, 1) := by
        unfold utf8Head
        rw [if_neg (by omega), if_neg (by omega), if_pos (by omega)]
        show (if 128 ≤ 128 + c % 64 ∧ 128 + c % 64 < 192 then
          some ((192 + c / 64 - 192) * 64 + (128 + c % 64 - 128), 1) else none) =
          some (c, 1)
        split_ifs with hcond
        · simp only [Option.some.injEq, Prod.mk.injEq]
          exact ⟨by omega, trivial⟩
        · exact absurd ⟨by omega, by omega⟩ hcond
      rw [hh]
      show (utf8DecodeF (l.length + 1) (((128 + c % 64) :: l).drop 1)).map (c :: ·) =
        (utf8Decode l).map (c :: ·)
      rw [show ((128 + c % 64) :: l).drop 1 = l from rfl,
        utf8DecodeF_irrel (l.length + 1) l.length l (by omega) le_rfl]
      rfl
    · have h3 : c < 65536 := by omega
      have he : cpToUtf8 c = [224 + c / 4096, 128 + c / 64 % 64, 128 + c % 64] := by
        rw [cpToUtf8, if_neg h1, if_neg h2, if_pos h3]
      rw [he]
      show utf8DecodeF (l.length + 1 + 1 + 1)
        ((224 + c / 4096) :: (128 + c / 64 % 64) :: (128 + c % 64) :: l) =
        (utf8Decode l).map (c :: ·)
      rw [utf8DecodeF]
      have hh : utf8Head (224 + c / 4096)
          ((128 + c / 64 % 64) :: (128 + c % 64) :: l) = some (c, 2) := by
        unfold utf8Head
        rw [if_neg (by omega), if_neg (by omega), if_neg (by omega), if_pos (by omega)]
        show (if (if 224 + c / 4096 = 224 then
              160 ≤ 128 + c / 64 % 64 ∧ 128 + c / 64 % 64 < 192
            else if 224 + c / 4096 = 237 then
              128 ≤ 128 + c / 64 % 64 ∧ 128 + c / 64 % 64 < 160
            else 128 ≤ 128 + c / 64 % 64 ∧ 128 + c / 64 % 64 < 192) ∧
            128 ≤ 128 + c % 64 ∧ 128 + c % 64 < 192 then
          some ((224 + c / 4096 - 224) * 4096 + (128 + c / 64 % 64 - 128) * 64 +
            (128 + c % 64 - 128), 2)
          else none) = some (c, 2)
        have hcond : (if 224 + c / 4096 = 224 then
            160 ≤ 128 + c / 64 % 64 ∧ 128 + c / 64 % 64 < 192
          else if 224 + c / 4096 = 237 then
            128 ≤ 128 + c / 64 % 64 ∧ 128 + c / 64 % 64 < 160
          else 128 ≤ 128 + c / 64 % 64 ∧ 128 + c / 64 % 64 < 192) := by
          split_ifs with hA hB
          · omega
          · omega
          · omega
        rw [if_pos ⟨hcond, by omega, by omega⟩]
        simp only [Option.some.injEq, Prod.mk.injEq]
        exact ⟨by omega, trivial⟩
      rw [hh]
      show (utf8DecodeF (l.length + 1 + 1)
          (((128 + c / 64 % 64) :: (128 + c % 64) :: l).drop 2)).map (c :: ·) =
        (utf8Decode l).map (c :: ·)
      rw [show ((128 + c / 64 % 64) :: (128 + c % 64) :: l).drop 2 = l from rfl,
        utf8DecodeF_irrel (l.length + 1 + 1) l.length l (by omega) le_rfl]
      rfl

theorem isWsCp_lt {c : Nat} (h : isWsCp c = true) : c < 55296 := by
  simp [isWsCp] at h
  omega

theorem utf8Decode_ws_append (ws rest : List Nat)
    (hws : ∀ c ∈ ws, isWsCp c = true) (hrest : ∀ x ∈ rest, x < 128) :
    utf8Decode (utf8Enc ws ++ rest) = some (ws ++ rest) := by
  induction ws with
  | nil => exact utf8Decode_ascii rest hrest
  | cons c ws' ih =>
    have hc : isWsCp c = true := hws c (List.mem_cons_self _ _)
    show utf8Decode ((cpToUtf8 c ++ utf8Enc ws') ++ rest) = some ((c :: ws') ++ rest)
    rw [List.append_assoc, utf8Decode_cons c (isWsCp_lt hc) _,
      ih (fun w hw => hws w (List.mem_cons_of_mem _ hw))]
    rfl

theorem trimEnd_append_of_ne (pre l : List Nat) (hne : l ≠ [])
    (hl : ∀ c ∈ l, isWsCp c = false) : trimEnd (pre ++ l) = pre ++ l := by
  unfold trimEnd
  have hdw : ((pre ++ l).reverse).dropWhile isWsCp = (pre ++ l).reverse := by
    rw [List.reverse_append]
    cases hr : l.reverse with
    | nil => exact absurd (List.reverse_eq_nil_iff.mp hr) hne
    | cons x t =>
      have hx : x ∈ l := by
        rw [← List.mem_reverse, hr]
        simp
      rw [List.cons_append]
      simp [List.dropWhile_cons, hl x hx]
  rw [hdw, List.reverse_reverse]

theorem b64Lookup_ws_none (u : Bool) {c : Nat} (h : isWsCp c = true) :
    b64Lookup u c = none := by
  simp [isWsCp] at h
  unfold b64Lookup
  split_ifs <;> first | rfl | (exfalso; omega)

theorem lookupAll_mem_none {u : Bool} {s : List Nat} {c : Nat} (hc : c ∈ s)
    (hnone : b64Lookup u c = none) : lookupAll u s = none := by
  induction s with
  | nil => simp at hc
  | cons a r ih =>
    rw [lookupAll]
    rcases List.mem_cons.mp hc with rfl | hc2
    · rw [hnone]
      rfl
    · rw [ih hc2]
      cases b64Lookup u a <;> rfl

theorem b64encode_length_two (u p : Bool) (b : List Nat) (hne : b ≠ []) :
    2 ≤ (b64encode u p b).length := by
  have hl := encVals_length b
  have hb1 : 1 ≤ b.length := by
    cases b with
    | nil => exact absurd rfl hne
    | cons x r => simp
  cases p with
  | false =>
    show 2 ≤ ((encVals b).map (b64Char u)).length
    rw [List.length_map, hl]
    split_ifs <;> omega
  | true =>
    show 2 ≤ ((encVals b).map (b64Char u) ++
      (if b.length % 3 = 1 then [61, 61]
       else if b.length % 3 = 2 then [61] else [])).length
    rw [List.length_append, List.length_map, hl]
    split_ifs <;> simp <;> omega

theorem b64decodeCfg_head_ws (u p : Bool) (w : Nat) (rest : List Nat)
    (hw : isWsCp w = true) (hlen : 3 ≤ (w :: rest).length) :
    b64decodeCfg u p (w :: rest) = none := by
  have hlk := b64Lookup_ws_none u hw
  cases p with
  | false =>
    show (lookupAll u (w :: rest)).bind decVals = none
    rw [lookupAll_mem_none (List.mem_cons_self w rest) hlk]
    rfl
  | true =>
    simp only [b64decodeCfg]
    split_ifs with hc1 hc2
    · rfl
    · rfl
    · obtain ⟨m, hm⟩ : ∃ m, (w :: rest).length - padCount (w :: rest) = m + 1 :=
        ⟨(w :: rest).length - padCount (w :: rest) - 1, by omega⟩
      rw [hm, List.take_succ_cons,
        lookupAll_mem_none (List.mem_cons_self w _) hlk]
      rfl

/-- C10 counterexample: the single space (byte 32) is a leading white-space
character followed by the URL-safe-no-pad encoding of the empty byte
sequence (the empty string).  The claim says all four variants must fail
and the original bytes must reach the CBOR parser unchanged; in fact the
first variant succeeds on the trimmed (empty) text, the parser receives
the empty byte string, and `decode` disagrees with parsing the raw bytes
(which are themselves the well-formed CBOR item -1). -/
theorem claim_C10_counterexample :
    b64encode true false [] = [] ∧
    isWsCp 32 = true ∧
    ([32] : List Nat) ++ b64encode true false [] = [32] ∧
    try_base64_decode [32] = Except.ok [] ∧
    decode [32] ≠ try_cbor2json [32] := by
  refine ⟨rfl, rfl, rfl, rfl, ?_⟩
  intro h
  rw [show decode [32] = Except.error "Failed to decode CBOR" from rfl,
    show try_cbor2json [32] = Except.ok [45, 49] from rfl] at h
  exact Except.noConfusion h

/-- C10 (amended): for every valid NONEMPTY base64 payload prefixed with
at least one leading white-space character, all four variant decodes fail
and the original bytes (including the leading white-space) are handed
unchanged to the CBOR parser as raw binary. -/
theorem claim_C10_amended (ws b : List Nat) (u p : Bool) (hws : ws ≠ [])
    (hwsall : ∀ c ∈ ws, isWsCp c = true) (hb : ∀ x ∈ b, x < 256)
    (hbne : b ≠ []) :
    try_base64_decode (utf8Enc ws ++ b64encode u p b) =
      Except.error "Failed to decode base64" ∧
    decode (utf8Enc ws ++ b64encode u p b) =
      try_cbor2json (utf8Enc ws ++ b64encode u p b) := by
  have hpl128 := b64encode_lt128 u p b hb
  have hplws := b64encode_not_ws u p b hb
  have hplne : b64encode u p b ≠ [] := by
    have h2 := b64encode_length_two u p b hbne
    intro h
    rw [h] at h2
    simp at h2
  have hu : utf8Decode (utf8Enc ws ++ b64encode u p b) =
      some (ws ++ b64encode u p b) :=
    utf8Decode_ws_append ws _ hwsall hpl128
  have htr : trimEnd (ws ++ b64encode u p b) = ws ++ b64encode u p b :=
    trimEnd_append_of_ne ws _ hplne hplws
  obtain ⟨w, ws', rfl⟩ : ∃ w ws', ws = w :: ws' := by
    cases ws with
    | nil => exact absurd rfl hws
    | cons w ws' => exact ⟨w, ws', rfl⟩
  have hwys : isWsCp w = true := hwsall w (List.mem_cons_self _ _)
  have hshape : (w :: ws') ++ b64encode u p b = w :: (ws' ++ b64encode u p b) :=
    List.cons_append w ws' _
  have hlen3 : 3 ≤ (w :: (ws' ++ b64encode u p b)).length := by
    have h2 := b64encode_length_two u p b hbne
    simp only [List.length_cons, List.length_append]
    omega
  have hfail : ∀ u2 p2 : Bool,
      b64decodeCfg u2 p2 ((w :: ws') ++ b64encode u p b) = none := by
    intro u2 p2
    rw [hshape]
    exact b64decodeCfg_head_ws u2 p2 w _ hwys hlen3
  have htb : try_base64_decode (utf8Enc (w :: ws') ++ b64encode u p b) =
      Except.error "Failed to decode base64" := by
    rw [try_base64_decode_eval _ _ hu, htr, hfail true false, hfail false true,
      hfail true true, hfail false false]
  refine ⟨htb, ?_⟩
  unfold decode
  rw [htb]

/-- C10 witness: a single space before the URL-safe-no-pad encoding of the
byte 0 falls through to the raw CBOR parser. -/
theorem claim_C10_witness :
    try_base64_decode (utf8Enc [32] ++ b64encode true false [0]) =
      Except.error "Failed to decode base64" ∧
    decode (utf8Enc [32] ++ b64encode true false [0]) =
      try_cbor2json (utf8Enc [32] ++ b64encode true false [0]) :=
  claim_C10_amended [32] [0] true false (by simp) (by decide) (by decide) (by simp)

end Cbd
